import Mathlib

/-!
# readFile: images, dataset index and model files of the neural network

A shallow embedding of `readFile.cpp` (`readImg`, `Normalize`, `readData`,
`saveModel`, `loadModel`), followed by theorems about it.

Conventions of the embedding.
* A file is the list of its bytes (`saveModel`, `loadModel`) or of its
  characters (`readData`); a file that cannot be opened is `none`.
* An `int` is a mathematical integer; wherever the source converts a size to
  `int` or copies the four bytes of an `int`, the embedding reduces modulo
  `2 ^ 32` explicitly.
* A `float` that is only copied (model files) is its four-byte object
  representation.  A `float` that is computed with (pixel samples, resize
  ratios) is a value of the arithmetic `Normalize` is given: `binary32` is
  the arithmetic of the source, `exact` the rational numbers, used only
  where a statement speaks of exact numbers.  The conversion of a byte to
  `float` in `readImg` is exact in binary32 and is a rational number.
* Behaviour the C++ standard leaves undefined (a read outside a buffer, a read
  past the end of a file that leaves a variable indeterminate) is `none`; an
  exception that escapes a function is the error of an `Except`.
* A product of two `int`s is the exact product: where it would overflow the
  source is undefined, and the theorems about `Normalize` assume `sizesFit`,
  which keeps every such product below `2 ^ 31`.
-/

namespace ReadFile

/-! ## Bytes, ints and floats as they are laid out in a model file -/

/-- One byte of a file or of an object representation. -/
abbrev Byte := Fin 256

/-- A `float` as the four bytes of its object representation, in memory order. -/
structure F32 where
  b0 : Byte
  b1 : Byte
  b2 : Byte
  b3 : Byte
deriving DecidableEq, Repr

/-- The bytes `reinterpret_cast<char*>` exposes for one `float`. -/
def F32.bytes (f : F32) : List Byte := [f.b0, f.b1, f.b2, f.b3]

/-- The all-zero float (`+0.0f`). -/
def F32.zero : F32 := ⟨0, 0, 0, 0⟩

/-- Conversion of a `size_t` to `int`: reduction modulo `2 ^ 32`, read as a
two's-complement value. -/
def intOfSize (n : Nat) : Int :=
  if n % 4294967296 < 2147483648 then ((n % 4294967296 : Nat) : Int)
  else ((n % 4294967296 : Nat) : Int) - 4294967296

/-- The four bytes of an `int` in memory order (little-endian two's
complement), as written by `file.write(reinterpret_cast<char*>(&v), sizeof(int))`. -/
def writeInt (v : Int) : List Byte :=
  let u : Nat := (v % 4294967296).toNat
  [Fin.ofNat u, Fin.ofNat (u / 256), Fin.ofNat (u / 65536), Fin.ofNat (u / 16777216)]

/-- The bytes `file.write(reinterpret_cast<char*>(buf), n * sizeof(float))`
copies out of a float buffer: the object representations of its first `n`
floats. -/
def writeFloats (buf : List F32) (n : Nat) : List Byte :=
  (buf.take n).flatMap F32.bytes

/-- `file.read(dst, n)` on the unread part `s` of a file: the `n` bytes
delivered and the part left unread.  When fewer than `n` bytes are left the
destination stays (partly) indeterminate: `none`. -/
def readBytes (n : Nat) (s : List Byte) : Option (List Byte × List Byte) :=
  if n ≤ s.length then some (s.take n, s.drop n) else none

/-- The `int` whose four bytes in memory order are `b`. -/
def intOfBytes (b : List Byte) : Int :=
  intOfSize ((b.getD 0 0).val + 256 * (b.getD 1 0).val + 65536 * (b.getD 2 0).val
    + 16777216 * (b.getD 3 0).val)

/-- `file.read(reinterpret_cast<char*>(&v), sizeof(int))`. -/
def readInt (s : List Byte) : Option (Int × List Byte) :=
  (readBytes 4 s).map fun p => (intOfBytes p.1, p.2)

/-- Groups raw bytes four by four into floats. -/
def floatsOfBytes : List Byte → List F32
  | a :: b :: c :: d :: rest => ⟨a, b, c, d⟩ :: floatsOfBytes rest
  | _ => []

/-- `file.read(reinterpret_cast<char*>(buf), n * sizeof(float))`: the `n`
floats delivered and the part of the file left unread. -/
def readFloats (n : Nat) (s : List Byte) : Option (List F32 × List Byte) :=
  (readBytes (n * 4) s).map fun p => (floatsOfBytes p.1, p.2)

/-! ## The model: `Layer`, `addLayer`, `destroyNN` (declared in `NN.h`) -/

/-- One layer of the network (`struct Layer` of `NN.h`, as `readFile.cpp` uses
it): `weights` and `biases` are the float buffers the two pointers own. -/
structure Layer where
  type : List Byte
  input_size : Nat
  output_size : Nat
  activation_func_params : List F32
  weights : List F32
  biases : List F32
deriving DecidableEq, Repr

/-- Modelled from the spec: `addLayer` of `NN.cpp` is not part of this file.
It appends to the container a layer with the given type, sizes and activation
parameters, and freshly allocated (here zeroed) weight storage of
`input_size * output_size` floats and bias storage of `output_size` floats. -/
def addLayer (NN : List Layer) (type : List Byte) (output_size input_size : Nat)
    (activation_func_params : List F32) : List Layer :=
  NN ++ [{ type := type, input_size := input_size, output_size := output_size,
           activation_func_params := activation_func_params,
           weights := List.replicate (input_size * output_size) F32.zero,
           biases := List.replicate output_size F32.zero }]

/-- Modelled from the spec: `destroyNN` of `NN.cpp` is not part of this file.
It releases every layer's buffers and empties the container. -/
def destroyNN (_NN : List Layer) : List Layer := []

/-- Applies `f` to `NN.back()`. -/
def modifyBack (f : Layer → Layer) : List Layer → List Layer
  | [] => []
  | [l] => [f l]
  | l :: l2 :: rest => l :: modifyBack f (l2 :: rest)

/-- A read of `n` floats into a buffer: the first `n` floats of the buffer are
replaced, the others keep their value. -/
def overwrite (buf : List F32) (n : Nat) (floats : List F32) : List F32 :=
  floats.take n ++ buf.drop n

/-! ## saveModel -/

/-- The body of the loop of `saveModel`: what is written for one layer. -/
def saveLayer (layer : Layer) : List Byte :=
  let type_length : Int := intOfSize layer.type.length
  let num_params : Int := intOfSize layer.activation_func_params.length
  writeInt type_length
    ++ layer.type.take type_length.toNat
    ++ writeInt layer.input_size
    ++ writeInt layer.output_size
    ++ writeInt num_params
    ++ (if num_params > 0 then writeFloats layer.activation_func_params num_params.toNat
        else [])
    ++ writeFloats layer.weights (layer.input_size * layer.output_size)
    ++ writeFloats layer.biases layer.output_size

/-- `saveModel(filename, NN)`: the content of the file after the call, `none`
when the file could not be opened for writing (nothing is written then).
`canOpen` says whether the `ofstream` opened. -/
def saveModel (canOpen : Bool) (NN : List Layer) : Option (List Byte) :=
  if !canOpen then none
  else
    let num_layers : Int := intOfSize NN.length
    some (writeInt num_layers
      ++ (List.range num_layers.toNat).flatMap fun i =>
           match NN[i]? with
           | some layer => saveLayer layer
           | none => [])

/-! ## loadModel -/

/-- One iteration of the loop of `loadModel` on the unread part `s` of the
file: the container with the layer added and the part left unread. -/
def loadLayer (s : List Byte) (NN : List Layer) : Option (List Layer × List Byte) := do
  let (type_length, s) ← readInt s
  -- `new char[type_length + 1]` and `type[type_length]` need `type_length ≥ 0`
  if type_length < 0 then none
  let (type, s) ← readBytes type_length.toNat s
  -- `string layer_type = type;` stops at the first NUL of the scratch buffer
  let layer_type := type.takeWhile (fun b => b ≠ 0)
  let (input_size, s) ← readInt s
  let (output_size, s) ← readInt s
  let (num_params, s) ← readInt s
  -- `vector<float> activation_func_params(num_params)` needs `num_params ≥ 0`
  if num_params < 0 then none
  let (activation_func_params, s) ←
    if num_params > 0 then readFloats num_params.toNat s
    else some (List.replicate num_params.toNat F32.zero, s)
  -- `addLayer` allocates storage of the declared shape: the sizes are not negative
  if input_size < 0 ∨ output_size < 0 then none
  let NN := addLayer NN layer_type output_size.toNat input_size.toNat activation_func_params
  let (w, s) ← readFloats (input_size.toNat * output_size.toNat) s
  let NN := modifyBack
    (fun l => { l with weights := overwrite l.weights (input_size.toNat * output_size.toNat) w }) NN
  let (b, s) ← readFloats output_size.toNat s
  let NN := modifyBack
    (fun l => { l with biases := overwrite l.biases output_size.toNat b }) NN
  pure (NN, s)

/-- The loop of `loadModel`: `n` iterations. -/
def loadLayers : Nat → List Byte → List Layer → Option (List Layer)
  | 0, _, NN => some NN
  | n + 1, s, NN =>
    match loadLayer s NN with
    | none => none
    | some (NN, s) => loadLayers n s NN

/-- `loadModel(filename, NN)`: the container after the call.  `file` is the
content of the file, `none` when it cannot be opened. -/
def loadModel (file : Option (List Byte)) (NN : List Layer) : Option (List Layer) :=
  match file with
  | none => some NN
  | some s =>
    let NN := if NN.length > 0 then destroyNN NN else NN
    match readInt s with
    | none => none
    | some (num_layers, s) => loadLayers num_layers.toNat s NN

/-! ## What a well-formed model is, and the file format in the spec's words -/

/-- Every quantity of the layer that the source holds in an `int` (the two
sizes, their product, the length of the type text, the number of activation
parameters) is a value of a 32-bit `int`. -/
abbrev Layer.fitsInt (l : Layer) : Prop :=
  l.type.length < 2147483648 ∧ l.input_size < 2147483648 ∧ l.output_size < 2147483648
    ∧ l.activation_func_params.length < 2147483648
    ∧ l.input_size * l.output_size < 2147483648

/-- The invariant of the data model: the weight buffer holds
`input_size * output_size` floats and the bias buffer `output_size` floats. -/
abbrev Layer.wellSized (l : Layer) : Prop :=
  l.weights.length = l.input_size * l.output_size ∧ l.biases.length = l.output_size

/-- The type text contains no NUL character. -/
abbrev Layer.typeIsText (l : Layer) : Prop := ∀ b ∈ l.type, b ≠ 0

/-- A model the source can hold: the layer count is a value of an `int`, and
every layer has `int` sizes and buffers of the declared sizes. -/
abbrev wellFormed (NN : List Layer) : Prop :=
  NN.length < 2147483648 ∧ ∀ l ∈ NN, l.fitsInt ∧ l.wellSized

/-- The four bytes of a count below `2 ^ 32` in a model file: least
significant byte first. -/
def int32le (n : Nat) : List Byte :=
  [⟨n % 256, Nat.mod_lt _ (by decide)⟩, ⟨n / 256 % 256, Nat.mod_lt _ (by decide)⟩,
   ⟨n / 65536 % 256, Nat.mod_lt _ (by decide)⟩, ⟨n / 16777216 % 256, Nat.mod_lt _ (by decide)⟩]

/-- The four bytes of each float of a buffer, in order. -/
def floatBytes (buf : List F32) : List Byte :=
  buf.flatMap fun f => [f.b0, f.b1, f.b2, f.b3]

/-- The record of one layer in a model file, in the words of the file format:
4-byte length of the type text, the type text, 4-byte input size, 4-byte
output size, 4-byte number of activation parameters, the parameters, the
weights, the biases. -/
def layerLayout (l : Layer) : List Byte :=
  int32le l.type.length ++ l.type
    ++ int32le l.input_size ++ int32le l.output_size
    ++ int32le l.activation_func_params.length
    ++ floatBytes l.activation_func_params
    ++ floatBytes l.weights
    ++ floatBytes l.biases

/-- The number of bytes of the record of one layer: four 4-byte fields, the
type text, and 4 bytes for each parameter, weight and bias. -/
def layerSize (l : Layer) : Nat :=
  16 + l.type.length
    + 4 * (l.activation_func_params.length + l.input_size * l.output_size + l.output_size)

/-- A model file in the words of the file format: the 4-byte layer count, then
the record of each layer in order. -/
def modelLayout (NN : List Layer) : List Byte :=
  int32le NN.length ++ NN.flatMap layerLayout

/-! ## binary32

The `float` of the source is IEEE binary32.  A finite value is `m * 2 ^ e`;
every operation is the exact result rounded to the nearest value, ties to
even.  Infinities and NaN are not modelled (a division by zero yields 0; the
only use of such a value, the test `mean_intensity > 0.5f`, is false either
way). -/

/-- A finite binary32 value `m * 2 ^ e`, normalized by `B32.round`. -/
structure B32 where
  m : Int
  e : Int
deriving DecidableEq, Repr

/-- The position of the leading bit of `n` (0 for 0 and 1), found in at most
`fuel` halvings. -/
def log2Fuel : Nat → Nat → Nat
  | 0, _ => 0
  | fuel + 1, n => if 2 ≤ n then log2Fuel fuel (n / 2) + 1 else 0

/-- The rational `p / q` rounded to the nearest binary32 value, ties to even
(24 significant bits, least exponent `-149`). -/
def B32.round (p : Int) (q : Nat) : B32 :=
  if p = 0 ∨ q = 0 then ⟨0, 0⟩
  else
    let a : Nat := p.natAbs
    let l : Int := (log2Fuel a a : Int) - (log2Fuel q q : Int)
    -- `lg` is the position of the leading bit of `a / q`
    let lg : Int := if q * 2 ^ l.toNat ≤ a * 2 ^ (-l).toNat then l else l - 1
    let e : Int := max (lg - 23) (-149)
    let num : Nat := a * 2 ^ (-e).toNat
    let den : Nat := q * 2 ^ e.toNat
    let k : Nat := num / den
    let r : Nat := num % den
    let k : Nat := if den < 2 * r ∨ (2 * r = den ∧ k % 2 = 1) then k + 1 else k
    let s : Int := if p < 0 then -1 else 1
    if k = 16777216 then ⟨s * 8388608, e + 1⟩ else ⟨s * k, e⟩

/-- Numerator of the value over the denominator `B32.den`. -/
def B32.num (x : B32) : Int := x.m * 2 ^ x.e.toNat

/-- Denominator of the value, a power of two. -/
def B32.den (x : B32) : Nat := 2 ^ (-x.e).toNat

/-- The value as an exact number. -/
def B32.toRat (x : B32) : ℚ := (x.num : ℚ) / (x.den : ℚ)

/-- `static_cast<float>(n)` for an `int n`. -/
def B32.ofInt (n : Int) : B32 := B32.round n 1

/-- Float addition. -/
def B32.add (x y : B32) : B32 := B32.round (x.num * y.den + y.num * x.den) (x.den * y.den)

/-- Float subtraction. -/
def B32.sub (x y : B32) : B32 := B32.round (x.num * y.den - y.num * x.den) (x.den * y.den)

/-- Float multiplication. -/
def B32.mul (x y : B32) : B32 := B32.round (x.num * y.num) (x.den * y.den)

/-- Float division. -/
def B32.div (x y : B32) : B32 :=
  B32.round (x.num * y.den * (if y.num < 0 then -1 else 1)) (x.den * y.num.natAbs)

/-- The comparison `x > y`. -/
def B32.gt (x y : B32) : Bool := decide (y.num * x.den < x.num * y.den)

/-- `static_cast<int>(floor(x))`. -/
def B32.floor (x : B32) : Int := x.num / (x.den : Int)

/-! ## Normalize

`Normalize` is embedded over the arithmetic it performs: `SampleOps F` gives
the float operations on samples of type `F`, a `Coord` gives the source
coordinate the resize step computes.  `binary32` and `binary32Coord` are the
arithmetic of the source; `exact` and `exactCoord` take every number as an
exact rational.  What is proved for every `SampleOps` and every `Coord` holds
of the source.  The dimensions and the channel count are taken non-negative,
and an `int` product is the exact product. -/

/-- The float operations of `Normalize` on samples of type `F`. -/
structure SampleOps (F : Type) where
  zero : F
  one : F
  half : F
  c255 : F
  c299 : F
  c587 : F
  c114 : F
  add : F → F → F
  sub : F → F → F
  mul : F → F → F
  div : F → F → F
  gt : F → F → Bool
  ofInt : Int → F

/-- `coord size newSize k` is `static_cast<int>(floor(k * ratio))` for
`ratio = static_cast<float>(size) / newSize`: the source row (column) of the
destination row (column) `k`. -/
abbrev Coord := Nat → Nat → Nat → Int

/-- The arithmetic of the source: binary32. -/
def binary32 : SampleOps B32 where
  zero := B32.ofInt 0
  one := B32.ofInt 1
  half := B32.round 1 2
  c255 := B32.ofInt 255
  c299 := B32.round 299 1000
  c587 := B32.round 587 1000
  c114 := B32.round 114 1000
  add := B32.add
  sub := B32.sub
  mul := B32.mul
  div := B32.div
  gt := B32.gt
  ofInt := B32.ofInt

/-- The source coordinate as the source computes it, in binary32. -/
def binary32Coord : Coord := fun size newSize k =>
  B32.floor (B32.mul (B32.ofInt k) (B32.div (B32.ofInt size) (B32.ofInt newSize)))

/-- Exact arithmetic on rational samples. -/
def exact : SampleOps ℚ where
  zero := 0
  one := 1
  half := 0.5
  c255 := 255
  c299 := 0.299
  c587 := 0.587
  c114 := 0.114
  add := fun x y => x + y
  sub := fun x y => x - y
  mul := fun x y => x * y
  div := fun x y => x / y
  gt := fun x y => decide (y < x)
  ofInt := fun n => (n : ℚ)

/-- The source coordinate with the ratio and the product taken as exact
numbers. -/
def exactCoord : Coord := fun size newSize k =>
  ⌊(k : ℚ) * ((size : ℚ) / (newSize : ℚ))⌋

/-- One iteration of the grayscale loop: the luma of pixel `i`. -/
def greyPixel {F : Type} (S : SampleOps F) (pixArr : List F) (nb_channels i : Nat) :
    Option F := do
  let r ← pixArr[i * nb_channels]?
  let g ← pixArr[i * nb_channels + 1]?
  let b ← pixArr[i * nb_channels + 2]?
  pure (S.add (S.add (S.mul S.c299 r) (S.mul S.c587 g)) (S.mul S.c114 b))

/-- The grayscale loop: the new buffer `greyPixArr` of `width * height`
samples. -/
def greyscale {F : Type} (S : SampleOps F) (pixArr : List F) (width height nb_channels : Nat) :
    Option (List F) :=
  (List.range (width * height)).mapM (greyPixel S pixArr nb_channels)

/-- The body of the inner resize loop: the sample stored at
`resizedPixArr[i * newWidth + j]`, read at
`static_cast<int>(py) * width + static_cast<int>(px)`. -/
def resizeRead {F : Type} (coord : Coord) (pixArr : List F)
    (width height newWidth newHeight i j : Nat) : Option F :=
  let px : Int := coord width newWidth j
  let py : Int := coord height newHeight i
  let k : Int := py * width + px
  if k < 0 then none else pixArr[k.toNat]?

/-- The resize loops: the new buffer `resizedPixArr`, filled row after row. -/
def resize {F : Type} (coord : Coord) (pixArr : List F)
    (width height newWidth newHeight : Nat) : Option (List F) :=
  ((List.range newHeight).mapM fun i =>
    (List.range newWidth).mapM fun j =>
      resizeRead coord pixArr width height newWidth newHeight i j).map List.flatten

/-- The divide-by-255 loop over the first `total_pixels` samples, in place:
the buffer and `total_intensity`, accumulated from `0.0f` in index order. -/
def scale {F : Type} (S : SampleOps F) (pixArr : List F) (total_pixels : Nat) :
    Option (List F × F) :=
  if total_pixels ≤ pixArr.length then
    let scaled := (pixArr.take total_pixels).map fun x => S.div x S.c255
    some (scaled ++ pixArr.drop total_pixels, scaled.foldl S.add S.zero)
  else none

/-- The inversion loop over the first `total_pixels` samples, in place. -/
def invertSamples {F : Type} (S : SampleOps F) (pixArr : List F) (total_pixels : Nat) :
    Option (List F) :=
  if total_pixels ≤ pixArr.length then
    some ((pixArr.take total_pixels).map (fun x => S.sub S.one x) ++ pixArr.drop total_pixels)
  else none

/-- `Normalize` up to and including the divide-by-255 loop: the buffer and
`total_intensity`. -/
def normalizeScaled {F : Type} (S : SampleOps F) (coord : Coord) (pixArr : List F)
    (width height newWidth newHeight nb_channels : Nat) : Option (List F × F) := do
  let pixArr ←
    (if nb_channels = 3 ∨ nb_channels = 4 then greyscale S pixArr width height nb_channels
     else pure pixArr)
  let pixArr ←
    (if width ≠ newWidth ∨ height ≠ newHeight then
       resize coord pixArr width height newWidth newHeight
     else pure pixArr)
  scale S pixArr (newWidth * newHeight)

/-- `Normalize(pixArr, width, height, newWidth, newHeight, nb_channels)`: the
buffer `pixArr` points to after the call (the call returns `true` on every
path). -/
def Normalize {F : Type} (S : SampleOps F) (coord : Coord) (pixArr : List F)
    (width height newWidth newHeight nb_channels : Nat) : Option (List F) := do
  let (pixArr, total_intensity) ←
    normalizeScaled S coord pixArr width height newWidth newHeight nb_channels
  let total_pixels := newWidth * newHeight
  let mean_intensity := S.div total_intensity (S.ofInt total_pixels)
  if S.gt mean_intensity S.half then invertSamples S pixArr total_pixels else pure pixArr

/-! ## The inversion loop and the resize index with exact numbers -/

/-- The body of the inner resize loop with exact ratios and products: the
sample stored at `resizedPixArr[i * newWidth + j]`. -/
def resizePixel (pixArr : List ℚ) (width : Nat) (x_ratio y_ratio : ℚ) (i j : Nat) :
    Option ℚ :=
  let px : Int := ⌊(j : ℚ) * x_ratio⌋
  let py : Int := ⌊(i : ℚ) * y_ratio⌋
  let k : Int := py * width + px
  if k < 0 then none else pixArr[k.toNat]?

/-- The inversion loop over the first `total_pixels` samples, in place, with
the subtraction `1.0f - pixArr[i]` exact. -/
def invert (pixArr : List ℚ) (total_pixels : Nat) : Option (List ℚ) :=
  if total_pixels ≤ pixArr.length then
    some ((pixArr.take total_pixels).map (fun x => 1 - x) ++ pixArr.drop total_pixels)
  else none

/-! ## readData

A character stands for the byte of the same code. -/

/-- One record of the dataset index (`struct Data` of `NN.h`). -/
structure Data where
  path : List Char
  label : Int
deriving DecidableEq, Repr

/-- The two exceptions `std::stoi` throws. -/
inductive StoiError where
  | invalid_argument
  | out_of_range
deriving DecidableEq, Repr

/-- `std::getline(stream, str, delim)` on the unread part `s` of a stream: the
text extracted (the delimiter is consumed, not stored) and the part left
unread.  The call fails exactly when no character is left: `eofbit` and
`failbit` are only ever set once the stream is exhausted. -/
def getline (s : List Char) (delim : Char) : Option (List Char × List Char) :=
  match s with
  | [] => none
  | _ => some (s.takeWhile (fun c => c ≠ delim), (s.dropWhile (fun c => c ≠ delim)).drop 1)

/-- `std::isspace` in the C locale. -/
def isspace (c : Char) : Bool :=
  c = ' ' ∨ c = '\t' ∨ c = '\n' ∨ c = '\x0b' ∨ c = '\x0c' ∨ c = '\r'

/-- The value of a run of decimal digits. -/
def digitsValue (ds : List Char) : Nat :=
  ds.foldl (fun acc c => 10 * acc + (c.toNat - 48)) 0

/-- `std::stoi(str)`: the text up to its first NUL is read as leading white
space, an optional sign, then the longest run of decimal digits;
`invalid_argument` without a digit, `out_of_range` when the value is no `int`. -/
def stoi (str : List Char) : Except StoiError Int :=
  let s := (str.takeWhile (fun c => c ≠ '\x00')).dropWhile isspace
  let (neg, s) :=
    match s with
    | [] => (false, s)
    | c :: t => if c = '-' then (true, t) else if c = '+' then (false, t) else (false, s)
  let ds := s.takeWhile Char.isDigit
  if ds = [] then .error .invalid_argument
  else
    let v : Int := if neg then -(digitsValue ds : Int) else (digitsValue ds : Int)
    if v < -2147483648 ∨ 2147483647 < v then .error .out_of_range else .ok v

/-- `str.substr(pos, count)` for `pos ≤ str.size()`. -/
def substr (str : List Char) (pos count : Nat) : List Char :=
  (str.drop pos).take count

/-- The `size_t` value of `str.size() - 2`: the difference, wrapped around
`2 ^ 64` when the size is below 2 (a size is itself below `2 ^ 64`). -/
def sizeMinus2 (str : List Char) : Nat :=
  if 2 ≤ str.length then str.length - 2 else str.length + 18446744073709551616 - 2

/-- The test `!str.empty() && str.front() == '"' && str.back() == '"'`. -/
def quoted (str : List Char) : Bool :=
  !str.isEmpty && str.head? == some '"' && str.getLast? == some '"'

/-- `label_str = n;` for an `int n`: the assignment operator taking a `char`
is selected, so the text becomes the single character of code `n mod 256`. -/
def assignInt (n : Int) : List Char :=
  [Char.ofNat (n % 256).toNat]

/-- The body of the loop of `readData` for one line: the record to store, or
`none` when the line has fewer than two fields. -/
def parseLine (line : List Char) : Except StoiError (Option Data) :=
  match getline line ',' with
  | none => .ok none
  | some (path, lineStream) =>
    match getline lineStream ',' with
    | none => .ok none
    | some (label_str, _) => do
      let path := if quoted path then substr path 1 (sizeMinus2 path) else path
      let label_str ←
        if quoted label_str then
          (stoi (substr label_str 1 (sizeMinus2 label_str))).map assignInt
        else pure label_str
      let label ← stoi label_str
      pure (some { path := path, label := label })

/-- The `while` loop of `readData`: `csvFile` is the unread part of the file,
`fuel` bounds the number of iterations (each consumes a character). -/
def readLoop (batch_size : Int) :
    Nat → List Char → Int → (Nat → Data) → Except StoiError (Nat → Data)
  | 0, _, _, data => .ok data
  | fuel + 1, csvFile, index, data =>
    match getline csvFile '\n' with
    | none => .ok data
    | some (line, csvFile) =>
      if index < batch_size then
        match parseLine line with
        | .error e => .error e
        | .ok none => readLoop batch_size fuel csvFile index data
        | .ok (some d) =>
          readLoop batch_size fuel csvFile (index + 1) (Function.update data index.toNat d)
      else .ok data

/-- `readData(csv_path, data, batch_size)`: the value returned and the array
`data` after the call, or the exception that escapes.  `csvFile` is the
content of the file, `none` when it cannot be opened; `data` is the caller's
array, entry by entry. -/
def readData (csvFile : Option (List Char)) (data : Nat → Data) (batch_size : Int) :
    Except StoiError (Bool × (Nat → Data)) :=
  match csvFile with
  | none => .ok (false, data)
  | some s =>
    -- the header line: the outcome of this `getline` is not looked at
    let s := match getline s '\n' with
      | none => s
      | some (_, rest) => rest
    (readLoop batch_size (s.length + 1) s 0 data).map fun d => (true, d)

/-! ## Well-formed data lines of a dataset index, in the spec's words -/

/-- The value of a decimal numeral, most significant digit first. -/
def decimalValue (ds : List Char) : Nat :=
  Nat.ofDigits 10 (ds.reverse.map fun c => c.toNat - 48)

/-- A data line `path,label`: the path (without its wrapping quotes), whether
it is wrapped in double quotes in the file, and the label as a decimal
numeral with an optional minus sign. -/
structure IndexLine where
  path : List Char
  quotedPath : Bool
  negative : Bool
  digits : List Char
deriving DecidableEq, Repr

/-- The text of the line in the file. -/
def IndexLine.text (l : IndexLine) : List Char :=
  (if l.quotedPath then '"' :: (l.path ++ ['"']) else l.path)
    ++ ',' :: (if l.negative then '-' :: l.digits else l.digits)

/-- The integer the label denotes. -/
def IndexLine.label (l : IndexLine) : Int :=
  if l.negative then -(decimalValue l.digits : Int) else (decimalValue l.digits : Int)

/-- The record the line stands for. -/
def IndexLine.record (l : IndexLine) : Data :=
  { path := l.path, label := l.label }

/-- The line is well formed: the path has no comma and no line break, a path
written without wrapping quotes is not bounded by double quotes, the label has
at least one digit and only digits, and is a value of a 32-bit `int`. -/
abbrev IndexLine.wellFormed (l : IndexLine) : Prop :=
  ',' ∉ l.path ∧ '\n' ∉ l.path ∧ (l.quotedPath = false → quoted l.path = false)
    ∧ l.digits ≠ [] ∧ (∀ c ∈ l.digits, c.isDigit = true)
    ∧ -2147483648 ≤ l.label ∧ l.label ≤ 2147483647

/-- The text of consecutive lines, each ended by a line break. -/
def linesText : List IndexLine → List Char
  | [] => []
  | l :: ls => l.text ++ '\n' :: linesText ls

/-- The text after the header line of an index file whose data lines are
`ls`, the last one ended by a line break or not. -/
def dataText (ls : List IndexLine) (finalNewline : Bool) : List Char :=
  if finalNewline then linesText ls else (linesText ls).dropLast

/-- The array after the records of `ls` were stored from entry `i` on. -/
def storeFrom : Nat → List IndexLine → (Nat → Data) → (Nat → Data)
  | _, [], data => data
  | i, l :: ls, data => storeFrom (i + 1) ls (Function.update data i l.record)

/-! ## The steps of the normalizer, in the spec's words -/

/-- The luma of pixel `i` of a channel-interleaved buffer, as the float
expression `0.299f * R + 0.587f * G + 0.114f * B`. -/
def luma {F : Type} (S : SampleOps F) (buf : List F) (channels i : Nat) : F :=
  S.add (S.add (S.mul S.c299 (buf.getD (i * channels) S.zero))
      (S.mul S.c587 (buf.getD (i * channels + 1) S.zero)))
    (S.mul S.c114 (buf.getD (i * channels + 2) S.zero))

/-- The buffer after the grayscale step: one luma per pixel when there are 3 or
4 channels, the buffer itself otherwise. -/
def greyed {F : Type} (S : SampleOps F) (buf : List F) (width height channels : Nat) : List F :=
  if channels = 3 ∨ channels = 4 then (List.range (width * height)).map (luma S buf channels)
  else buf

/-- The index the resize step reads for the destination pixel of row `i` and
column `j`. -/
def readIndex (coord : Coord) (width height targetWidth targetHeight i j : Nat) : Int :=
  coord height targetHeight i * width + coord width targetWidth j

/-- Every read of the resize step falls inside a buffer of width × height
samples. -/
abbrev readsInside (coord : Coord) (width height targetWidth targetHeight : Nat) : Prop :=
  ∀ i, i < targetHeight → ∀ j, j < targetWidth →
    0 ≤ readIndex coord width height targetWidth targetHeight i j
      ∧ readIndex coord width height targetWidth targetHeight i j < ((width * height : Nat) : Int)

/-- The buffer after the resize step: row after row, the source sample read
for every destination pixel when the target size differs from the source size,
the buffer itself otherwise. -/
def resized {F : Type} (S : SampleOps F) (coord : Coord) (buf : List F)
    (width height targetWidth targetHeight : Nat) : List F :=
  if width ≠ targetWidth ∨ height ≠ targetHeight then
    ((List.range targetHeight).map fun i =>
      (List.range targetWidth).map fun j =>
        buf.getD (readIndex coord width height targetWidth targetHeight i j).toNat S.zero).flatten
  else buf

/-- The sizes the source holds in an `int` are values of a 32-bit `int`. -/
abbrev sizesFit (width height targetWidth targetHeight channels : Nat) : Prop :=
  width * height * channels < 2147483648 ∧ targetWidth * targetHeight < 2147483648

/-- The index of the source sample of nearest-neighbour sampling for the
destination pixel of row `i` and column `j`: row `floor(i*height/targetHeight)`,
column `floor(j*width/targetWidth)`. -/
def nearest (width height targetWidth targetHeight i j : Nat) : Nat :=
  (i * height / targetHeight) * width + j * width / targetWidth

/-- The index `static_cast<int>(py) * width + static_cast<int>(px)` the inner
resize loop reads for the destination pixel of row `i` and column `j`, with
exact ratios and products. -/
def sourceIndex (width : Nat) (x_ratio y_ratio : ℚ) (i j : Nat) : Int :=
  ⌊(i : ℚ) * y_ratio⌋ * width + ⌊(j : ℚ) * x_ratio⌋

/-- The mean of the samples of a buffer. -/
def mean (buf : List ℚ) : ℚ :=
  buf.sum / (buf.length : ℚ)

/-! ## readImg -/

/-- What the decoder `stbi_load` hands back when it succeeds: the raw bytes
and the width, height and channel count it stores through its out
parameters. -/
structure Decoded where
  data : List Byte
  width : Nat
  height : Nat
  channels : Nat
deriving DecidableEq, Repr

/-- `readImg(filename, pixArr, width, height, channels)`: the value returned
and the buffer `pixArr` refers to after the call.  `temp` is what `stbi_load`
returned, `none` for `nullptr`; `pixArr` is the buffer before the call.  The
conversion of an `unsigned char` to `float` is exact. -/
def readImg (temp : Option Decoded) (pixArr : List ℚ) : Option (Bool × List ℚ) :=
  match temp with
  | none => some (false, pixArr)
  | some temp =>
    ((List.range (temp.width * temp.height * temp.channels)).mapM fun i =>
      (temp.data[i]?).map fun b => ((b.val : Nat) : ℚ)).map fun pixArr => (true, pixArr)

/-! ## Malformed and non-numeric data lines, in the spec's words -/

/-- A line with fewer than two comma-delimited fields: it has no comma, or its
only comma is its last character. -/
abbrev fewerThanTwoFields (line : List Char) : Prop :=
  ',' ∉ line ∨ (line.getLast? = some ',' ∧ ',' ∉ line.dropLast)

/-- The text without its sign, if it starts with one. -/
def afterSign : List Char → List Char
  | [] => []
  | c :: t => if c = '-' ∨ c = '+' then t else c :: t

/-- The text begins, after optional white space and an optional sign, with a
decimal digit. -/
def beginsWithNumeral (s : List Char) : Bool :=
  match afterSign (s.dropWhile isspace) with
  | [] => false
  | c :: _ => c.isDigit

/-- A data line `path,label` given by its two fields as written: the path
field, and the label field as its text without wrapping quotes together with
whether it is wrapped in double quotes. -/
structure LabelLine where
  pathField : List Char
  label : List Char
  quotedLabel : Bool
deriving DecidableEq, Repr

/-- The text of the line in the file. -/
def LabelLine.text (l : LabelLine) : List Char :=
  l.pathField ++ ',' :: (if l.quotedLabel then '"' :: (l.label ++ ['"']) else l.label)

/-- The line has two fields without comma or line break, and its label, once
the optional wrapping quotes are removed, does not begin with a numeral; a
label written without wrapping quotes is not empty and not bounded by double
quotes. -/
abbrev LabelLine.nonNumeric (l : LabelLine) : Prop :=
  ',' ∉ l.pathField ∧ '\n' ∉ l.pathField ∧ ',' ∉ l.label ∧ '\n' ∉ l.label
    ∧ (l.quotedLabel = false → l.label ≠ [] ∧ quoted l.label = false)
    ∧ beginsWithNumeral l.label = false

/-- What follows a line in a file: nothing when the file ends there, or a
line break and the rest of the file. -/
def lineEnd (after : Option (List Char)) : List Char :=
  match after with
  | none => []
  | some rest => '\n' :: rest

/-! ## Theorems: model files -/

theorem intOfSize_of_lt {n : Nat} (h : n < 2147483648) : intOfSize n = (n : Int) := by
  unfold intOfSize
  have h1 : n % 4294967296 = n := Nat.mod_eq_of_lt (by omega)
  rw [h1, if_pos h]

theorem readBytes_append (b r : List Byte) : readBytes b.length (b ++ r) = some (b, r) := by
  simp [readBytes]

theorem readInt_writeInt {n : Nat} (h : n < 2147483648) (r : List Byte) :
    readInt (writeInt (n : Int) ++ r) = some ((n : Int), r) := by
  have hu : ((n : Int) % 4294967296).toNat = n := by omega
  have hlen : (writeInt (n : Int)).length = 4 := rfl
  have hb := readBytes_append (writeInt (n : Int)) r
  rw [hlen] at hb
  simp only [readInt, hb, Option.map_some']
  congr 2
  simp only [intOfBytes, writeInt, hu, List.getD_cons_zero, List.getD_cons_succ, Fin.ofNat]
  rw [← intOfSize_of_lt h]
  congr 1
  omega

theorem floatsOfBytes_flatMap (fs : List F32) (r : List Byte) (hr : r.length < 4) :
    floatsOfBytes (fs.flatMap F32.bytes ++ r) = fs := by
  induction fs with
  | nil =>
    match r, hr with
    | [], _ => rfl
    | [_], _ => rfl
    | [_, _], _ => rfl
    | [_, _, _], _ => rfl
  | cons f fs ih =>
    rw [List.flatMap_cons]
    show floatsOfBytes (f.b0 :: f.b1 :: f.b2 :: f.b3 :: (fs.flatMap F32.bytes ++ r)) = f :: fs
    rw [floatsOfBytes, ih]

theorem length_flatMap_bytes (fs : List F32) : (fs.flatMap F32.bytes).length = fs.length * 4 := by
  induction fs with
  | nil => rfl
  | cons f fs ih => simp [List.flatMap_cons, F32.bytes, ih]; omega

theorem readFloats_flatMap (fs : List F32) (r : List Byte) :
    readFloats fs.length (fs.flatMap F32.bytes ++ r) = some (fs, r) := by
  have hb := readBytes_append (fs.flatMap F32.bytes) r
  rw [length_flatMap_bytes] at hb
  simp only [readFloats, hb, Option.map_some']
  have := floatsOfBytes_flatMap fs [] (by simp)
  rw [List.append_nil] at this
  rw [this]

theorem modifyBack_concat (f : Layer → Layer) (xs : List Layer) (l : Layer) :
    modifyBack f (xs ++ [l]) = xs ++ [f l] := by
  induction xs with
  | nil => rfl
  | cons x xs ih =>
    cases xs with
    | nil => rfl
    | cons y ys =>
      show x :: modifyBack f ((y :: ys) ++ [l]) = _
      rw [ih]; rfl

theorem flatMap_range_getElem? {β : Type} (NN : List Layer) (f : Layer → List β) :
    ((List.range NN.length).flatMap fun i =>
      match NN[i]? with
      | some layer => f layer
      | none => []) = NN.flatMap f := by
  induction NN with
  | nil => rfl
  | cons l NN ih =>
    rw [List.length_cons, List.range_succ_eq_map, List.flatMap_cons, List.flatMap_cons,
      List.flatMap_map]
    simp only [List.getElem?_cons_zero, List.getElem?_cons_succ]
    rw [ih]

theorem writeFloats_of_length {buf : List F32} {n : Nat} (h : buf.length = n) :
    writeFloats buf n = buf.flatMap F32.bytes := by
  subst h; simp [writeFloats]

theorem readFloats_of_length {fs : List F32} {n : Nat} (h : fs.length = n) (r : List Byte) :
    readFloats n (fs.flatMap F32.bytes ++ r) = some (fs, r) := by
  rw [← h]; exact readFloats_flatMap fs r

theorem overwrite_all {buf floats : List F32} {n : Nat} (hb : buf.length = n)
    (hf : floats.length = n) : overwrite buf n floats = floats := by
  subst hf
  simp [overwrite, hb]

theorem loadLayer_saveLayer (l : Layer) (hfit : l.fitsInt) (hsz : l.wellSized)
    (hnul : l.typeIsText) (r : List Byte) (acc : List Layer) :
    loadLayer (saveLayer l ++ r) acc = some (acc ++ [l], r) := by
  obtain ⟨h1, h2, h3, h4, h5⟩ := hfit
  obtain ⟨hw, hb⟩ := hsz
  have htw : l.type.takeWhile (fun b => b ≠ 0) = l.type := by
    rw [List.takeWhile_eq_self_iff]
    intro b hb
    simpa using hnul b hb
  have n1 : ¬ ((l.type.length : Int) < 0) := by omega
  have n2 : ¬ ((l.input_size : Int) < 0) := by omega
  have n3 : ¬ ((l.output_size : Int) < 0) := by omega
  have n4 : ¬ ((l.activation_func_params.length : Int) < 0) := by omega
  simp only [saveLayer, intOfSize_of_lt h1, intOfSize_of_lt h4, Int.toNat_ofNat, List.take_length,
    List.append_assoc, writeFloats_of_length hw, writeFloats_of_length hb,
    writeFloats_of_length (rfl : l.activation_func_params.length = _)]
  unfold loadLayer
  simp only [readInt_writeInt h1, readInt_writeInt h2, readInt_writeInt h3, readInt_writeInt h4,
    Option.bind_eq_bind, Option.some_bind, readBytes_append, htw, Int.toNat_ofNat, n1, n2, n3, n4,
    if_false, or_self, Option.pure_def]
  have key : ∀ ps : List F32, ps = l.activation_func_params →
      (modifyBack (fun x => { x with biases := overwrite x.biases l.output_size l.biases })
        (modifyBack (fun x => { x with
            weights := overwrite x.weights (l.input_size * l.output_size) l.weights })
          (addLayer acc l.type l.output_size l.input_size ps))) = acc ++ [l] := by
    intro ps hps
    subst hps
    simp only [addLayer, modifyBack_concat]
    rw [overwrite_all (List.length_replicate _ _) hw, overwrite_all (List.length_replicate _ _) hb]
  by_cases hp : (l.activation_func_params.length : Int) > 0
  · simp only [hp, if_true, readFloats_of_length rfl, readFloats_of_length hw,
      readFloats_of_length hb, Option.some_bind, key _ rfl]
  · have h0 : l.activation_func_params = [] := by
      apply List.eq_nil_of_length_eq_zero; omega
    simp only [h0, List.flatMap_nil, List.nil_append, List.length_nil, Nat.cast_zero,
      gt_iff_lt, lt_self_iff_false, if_false, List.replicate_zero, readFloats_of_length hw, readFloats_of_length hb,
      Option.some_bind, key _ h0.symm]

theorem writeInt_eq_int32le {n : Nat} (h : n < 2147483648) :
    writeInt (n : Int) = int32le n := by
  have hu : ((n : Int) % 4294967296).toNat = n := by omega
  simp only [writeInt, hu, int32le, Fin.ofNat]

theorem flatMap_bytes_eq (buf : List F32) : buf.flatMap F32.bytes = floatBytes buf := rfl

theorem length_floatBytes (buf : List F32) : (floatBytes buf).length = 4 * buf.length := by
  rw [← flatMap_bytes_eq, length_flatMap_bytes]; omega

theorem saveLayer_eq_layout (l : Layer) (hfit : l.fitsInt) (hsz : l.wellSized) :
    saveLayer l = layerLayout l := by
  obtain ⟨h1, h2, h3, h4, -⟩ := hfit
  obtain ⟨hw, hb⟩ := hsz
  simp only [saveLayer, layerLayout, intOfSize_of_lt h1, intOfSize_of_lt h4, Int.toNat_ofNat,
    List.take_length, writeFloats_of_length hw, writeFloats_of_length hb,
    writeFloats_of_length (rfl : l.activation_func_params.length = _),
    writeInt_eq_int32le h1, writeInt_eq_int32le h2, writeInt_eq_int32le h3,
    writeInt_eq_int32le h4, flatMap_bytes_eq]
  by_cases hp : (l.activation_func_params.length : Int) > 0
  · simp only [hp, if_true]
  · have h0 : l.activation_func_params = [] := by
      apply List.eq_nil_of_length_eq_zero; omega
    simp only [h0, List.length_nil, Nat.cast_zero, gt_iff_lt,
      lt_self_iff_false, if_false]
    rfl

theorem length_layerLayout (l : Layer) (hsz : l.wellSized) :
    (layerLayout l).length = layerSize l := by
  obtain ⟨hw, hb⟩ := hsz
  simp only [layerLayout, layerSize, List.length_append, length_floatBytes, int32le,
    List.length_cons, List.length_nil, hw, hb]
  omega

theorem length_flatMap_layerLayout (NN : List Layer) (h : ∀ l ∈ NN, l.wellSized) :
    (NN.flatMap layerLayout).length = (NN.map layerSize).sum := by
  induction NN with
  | nil => rfl
  | cons l NN ih =>
    rw [List.flatMap_cons, List.length_append, List.map_cons, List.sum_cons,
      length_layerLayout l (h l (List.mem_cons_self _ _)),
      ih fun x hx => h x (List.mem_cons_of_mem _ hx)]

theorem flatMap_congr_mem {α β : Type} (xs : List α) (f g : α → List β)
    (h : ∀ x ∈ xs, f x = g x) : xs.flatMap f = xs.flatMap g := by
  induction xs with
  | nil => rfl
  | cons x xs ih =>
    rw [List.flatMap_cons, List.flatMap_cons, h x (List.mem_cons_self _ _),
      ih fun y hy => h y (List.mem_cons_of_mem _ hy)]

theorem saveModel_eq (NN : List Layer) (hn : NN.length < 2147483648) :
    saveModel true NN = some (writeInt NN.length ++ NN.flatMap saveLayer) := by
  simp only [saveModel, intOfSize_of_lt hn, Int.toNat_ofNat, Bool.not_true, Bool.false_eq_true,
    if_false, flatMap_range_getElem?]

theorem loadLayers_flatMap (L : List Layer)
    (h : ∀ l ∈ L, l.fitsInt ∧ l.wellSized) (ht : ∀ l ∈ L, l.typeIsText)
    (r : List Byte) (acc : List Layer) :
    loadLayers L.length (L.flatMap saveLayer ++ r) acc = some (acc ++ L) := by
  induction L generalizing acc with
  | nil => simp [loadLayers]
  | cons l L ih =>
    have hl := h l (List.mem_cons_self _ _)
    rw [List.length_cons, List.flatMap_cons, List.append_assoc, loadLayers,
      loadLayer_saveLayer l hl.1 hl.2 (ht l (List.mem_cons_self _ _))]
    simp only []
    rw [ih (fun x hx => h x (List.mem_cons_of_mem _ hx))
      (fun x hx => ht x (List.mem_cons_of_mem _ hx)), List.append_assoc]
    rfl

/-- C2. Byte layout written by `saveModel`: for every model the source can
hold (counts and sizes are values of an `int`, buffers have their declared
sizes), the file written is exactly the 4-byte layer count (least significant
byte first) followed, for each layer in order, by the 4-byte length of the
type text, the type text, the 4-byte input size, the 4-byte output size, the
4-byte number of activation parameters, the four bytes of each parameter
(nothing when there is none), of each weight and of each bias; its size is 4
bytes plus, for each layer, 16 bytes, the type text and 4 bytes for each
parameter, weight and bias. -/
theorem saveModel_layout (NN : List Layer) (h : wellFormed NN) :
    saveModel true NN = some (modelLayout NN)
      ∧ (modelLayout NN).length = 4 + (NN.map layerSize).sum := by
  constructor
  · rw [saveModel_eq NN h.1, modelLayout, writeInt_eq_int32le h.1,
      flatMap_congr_mem NN saveLayer layerLayout fun l hl =>
        saveLayer_eq_layout l (h.2 l hl).1 (h.2 l hl).2]
  · rw [modelLayout, List.length_append, length_flatMap_layerLayout NN fun l hl => (h.2 l hl).2]
    rfl

/-- Witness of C2: a layer `de` of input size 2 and output size 1 with one
activation parameter, written byte by byte. -/
theorem saveModel_layout_witness :
    (saveModel true
          [⟨[100, 101], 2, 1, [⟨0, 0, 128, 63⟩], [⟨1, 2, 3, 4⟩, ⟨5, 6, 7, 8⟩], [⟨9, 9, 9, 9⟩]⟩]
        = some (modelLayout
          [⟨[100, 101], 2, 1, [⟨0, 0, 128, 63⟩], [⟨1, 2, 3, 4⟩, ⟨5, 6, 7, 8⟩], [⟨9, 9, 9, 9⟩]⟩])
      ∧ (modelLayout
          [⟨[100, 101], 2, 1, [⟨0, 0, 128, 63⟩], [⟨1, 2, 3, 4⟩, ⟨5, 6, 7, 8⟩],
            [⟨9, 9, 9, 9⟩]⟩]).length
        = 4 + ([⟨[100, 101], 2, 1, [⟨0, 0, 128, 63⟩], [⟨1, 2, 3, 4⟩, ⟨5, 6, 7, 8⟩],
            [⟨9, 9, 9, 9⟩]⟩].map layerSize).sum)
      ∧ modelLayout
          [⟨[100, 101], 2, 1, [⟨0, 0, 128, 63⟩], [⟨1, 2, 3, 4⟩, ⟨5, 6, 7, 8⟩], [⟨9, 9, 9, 9⟩]⟩]
        = [1, 0, 0, 0, 2, 0, 0, 0, 100, 101, 2, 0, 0, 0, 1, 0, 0, 0, 1, 0, 0, 0,
           0, 0, 128, 63, 1, 2, 3, 4, 5, 6, 7, 8, 9, 9, 9, 9]
      ∧ int32le 305419896 = [120, 86, 52, 18] :=
  ⟨saveModel_layout _ (by decide), by decide, by decide⟩

/-- C1 as stated fails: a type text with an embedded NUL character comes back
cut at the NUL, because `loadModel` rebuilds the text from a NUL-terminated
scratch buffer. -/
theorem loadModel_saveModel_nul_counterexample :
    wellFormed [⟨[97, 0, 98], 1, 1, [], [⟨0, 0, 128, 63⟩], [⟨0, 0, 0, 0⟩]⟩]
      ∧ loadModel (saveModel true [⟨[97, 0, 98], 1, 1, [], [⟨0, 0, 128, 63⟩], [⟨0, 0, 0, 0⟩]⟩]) []
        = some [⟨[97], 1, 1, [], [⟨0, 0, 128, 63⟩], [⟨0, 0, 0, 0⟩]⟩]
      ∧ loadModel (saveModel true [⟨[97, 0, 98], 1, 1, [], [⟨0, 0, 128, 63⟩], [⟨0, 0, 0, 0⟩]⟩]) []
        ≠ some [⟨[97, 0, 98], 1, 1, [], [⟨0, 0, 128, 63⟩], [⟨0, 0, 0, 0⟩]⟩] := by
  decide

/-- C1, amended. Round trip of `saveModel` and `loadModel`: for every model
the source can hold (counts and sizes are values of an `int`, buffers have
their declared sizes) whose type texts contain no NUL character, loading the
file written by `saveModel` into any container yields exactly that model: the
same layers in the same order, each with the same type text, sizes, activation
parameters, weights and biases, byte for byte. -/
theorem loadModel_saveModel (NN container : List Layer) (h : wellFormed NN)
    (ht : ∀ l ∈ NN, l.typeIsText) :
    loadModel (saveModel true NN) container = some NN := by
  have h31 := h.1
  rw [saveModel_eq NN h.1]
  simp only [loadModel, readInt_writeInt h31, Int.toNat_ofNat]
  have key := loadLayers_flatMap NN h.2 ht [] []
  rw [List.append_nil, List.nil_append] at key
  by_cases hc : container.length > 0
  · simp only [hc, if_true, destroyNN, key]
  · have : container = [] := List.eq_nil_of_length_eq_zero (by omega)
    subst this
    simp only [List.length_nil, gt_iff_lt, lt_self_iff_false, if_false, key]

/-- Witness of C1 (amended): a layer with one activation parameter followed by
a layer without activation parameters, loaded into a container that holds a
layer. -/
theorem loadModel_saveModel_witness :
    wellFormed
        [⟨[100, 101], 2, 1, [⟨0, 0, 128, 63⟩], [⟨1, 2, 3, 4⟩, ⟨5, 6, 7, 8⟩], [⟨9, 9, 9, 9⟩]⟩,
         ⟨[114], 1, 1, [], [⟨0, 0, 128, 63⟩], [⟨0, 0, 0, 0⟩]⟩]
      ∧ loadModel
          (saveModel true
            [⟨[100, 101], 2, 1, [⟨0, 0, 128, 63⟩], [⟨1, 2, 3, 4⟩, ⟨5, 6, 7, 8⟩], [⟨9, 9, 9, 9⟩]⟩,
             ⟨[114], 1, 1, [], [⟨0, 0, 128, 63⟩], [⟨0, 0, 0, 0⟩]⟩])
          [⟨[120], 1, 2, [], [⟨0, 0, 0, 0⟩, ⟨0, 0, 0, 0⟩], [⟨0, 0, 0, 0⟩, ⟨0, 0, 0, 0⟩]⟩]
        = some
          [⟨[100, 101], 2, 1, [⟨0, 0, 128, 63⟩], [⟨1, 2, 3, 4⟩, ⟨5, 6, 7, 8⟩], [⟨9, 9, 9, 9⟩]⟩,
           ⟨[114], 1, 1, [], [⟨0, 0, 128, 63⟩], [⟨0, 0, 0, 0⟩]⟩] :=
  ⟨by decide, loadModel_saveModel _ _ (by decide) (by simp [Layer.typeIsText])⟩

/-- C3. Destructive reload: for every model file that can be opened and every
container, `loadModel` leaves what it leaves when the container is empty
before the call; no layer of the previous model remains. -/
theorem loadModel_destructive (file : List Byte) (NN : List Layer) :
    loadModel (some file) NN = loadModel (some file) [] := by
  cases NN with
  | nil => rfl
  | cons l NN => simp [loadModel, destroyNN]

/-! ## Theorems: dataset index -/

theorem takeWhile_append_stop {α : Type} (p : α → Bool) (a : List α) (d : α) (r : List α)
    (ha : ∀ c ∈ a, p c = true) (hd : p d = false) :
    (a ++ d :: r).takeWhile p = a := by
  induction a with
  | nil => simp [List.takeWhile_cons, hd]
  | cons x a ih =>
    rw [List.cons_append, List.takeWhile_cons, ha x (List.mem_cons_self _ _),
      ih fun c hc => ha c (List.mem_cons_of_mem _ hc)]
    rfl

theorem dropWhile_append_stop {α : Type} (p : α → Bool) (a : List α) (d : α) (r : List α)
    (ha : ∀ c ∈ a, p c = true) (hd : p d = false) :
    (a ++ d :: r).dropWhile p = d :: r := by
  induction a with
  | nil => simp [List.dropWhile_cons, hd]
  | cons x a ih =>
    rw [List.cons_append, List.dropWhile_cons, ha x (List.mem_cons_self _ _)]
    exact ih fun c hc => ha c (List.mem_cons_of_mem _ hc)

theorem takeWhile_all {α : Type} (p : α → Bool) (a : List α) (ha : ∀ c ∈ a, p c = true) :
    a.takeWhile p = a := by
  rw [List.takeWhile_eq_self_iff]; exact ha

theorem dropWhile_all {α : Type} (p : α → Bool) (a : List α) (ha : ∀ c ∈ a, p c = true) :
    a.dropWhile p = [] := by
  rw [List.dropWhile_eq_nil_iff]; exact ha

theorem getline_cons (x : Char) (xs : List Char) (d : Char) :
    getline (x :: xs) d
      = some ((x :: xs).takeWhile (fun c => c ≠ d),
          ((x :: xs).dropWhile (fun c => c ≠ d)).drop 1) := rfl

theorem getline_append (a r : List Char) (d : Char) (ha : ∀ c ∈ a, c ≠ d) :
    getline (a ++ d :: r) d = some (a, r) := by
  have hp : ∀ c ∈ a, (decide (c ≠ d)) = true := fun c hc => by simpa using ha c hc
  have hd : (decide (d ≠ d)) = false := by simp
  cases h : a ++ d :: r with
  | nil => simp at h
  | cons x xs =>
    rw [getline_cons, ← h, takeWhile_append_stop _ a d r hp hd,
      dropWhile_append_stop _ a d r hp hd]
    rfl

theorem getline_all (a : List Char) (d : Char) (hne : a ≠ []) (ha : ∀ c ∈ a, c ≠ d) :
    getline a d = some (a, []) := by
  have hp : ∀ c ∈ a, (decide (c ≠ d)) = true := fun c hc => by simpa using ha c hc
  cases h : a with
  | nil => exact absurd h hne
  | cons x xs =>
    rw [getline_cons, ← h, takeWhile_all _ a hp, dropWhile_all _ a hp]
    rfl

theorem digitsValue_eq_decimalValue (ds : List Char) : digitsValue ds = decimalValue ds := by
  unfold digitsValue decimalValue
  induction ds using List.reverseRecOn with
  | nil => rfl
  | append_singleton ds c ih =>
    rw [List.foldl_append, List.reverse_append, List.reverse_singleton, List.singleton_append,
      List.map_cons, Nat.ofDigits_cons, ← ih]
    simp only [List.foldl_cons, List.foldl_nil]
    omega

theorem isDigit_ne {c d : Char} (hc : c.isDigit = true) (hd : d.isDigit = false) : c ≠ d := by
  rintro rfl
  rw [hc] at hd
  cases hd

theorem isspace_digit {c : Char} (hc : c.isDigit = true) : isspace c = false := by
  have h1 := isDigit_ne hc (d := ' ') (by decide)
  have h2 := isDigit_ne hc (d := '\t') (by decide)
  have h3 := isDigit_ne hc (d := '\n') (by decide)
  have h4 := isDigit_ne hc (d := '\x0b') (by decide)
  have h5 := isDigit_ne hc (d := '\x0c') (by decide)
  have h6 := isDigit_ne hc (d := '\r') (by decide)
  simp [isspace, h1, h2, h3, h4, h5, h6]

theorem stoi_digits (ds : List Char) (hne : ds ≠ []) (hd : ∀ c ∈ ds, c.isDigit = true)
    (hr : (decimalValue ds : Int) ≤ 2147483647) :
    stoi ds = .ok (decimalValue ds : Int) := by
  obtain ⟨c, t, rfl⟩ := List.exists_cons_of_ne_nil hne
  have hc := hd c (List.mem_cons_self _ _)
  have h1 : (c :: t).takeWhile (fun c => decide (c ≠ '\x00')) = c :: t :=
    takeWhile_all _ _ fun x hx => by simpa using isDigit_ne (hd x hx) (d := '\x00') (by decide)
  have h2 : (c :: t).dropWhile isspace = c :: t := by
    rw [List.dropWhile_cons, isspace_digit hc]; rfl
  have h3 : (c :: t).takeWhile Char.isDigit = c :: t := takeWhile_all _ _ hd
  have n1 : c ≠ '-' := isDigit_ne hc (by decide)
  have n2 : c ≠ '+' := isDigit_ne hc (by decide)
  have hv : ¬ ((decimalValue (c :: t) : Int) < -2147483648 ∨
      2147483647 < (decimalValue (c :: t) : Int)) := by omega
  simp only [stoi, h1, h2, n1, n2, if_false, h3, digitsValue_eq_decimalValue, hv, reduceCtorEq,
    Bool.false_eq_true]

theorem stoi_minus_digits (ds : List Char) (hne : ds ≠ []) (hd : ∀ c ∈ ds, c.isDigit = true)
    (hr : -2147483648 ≤ -(decimalValue ds : Int)) :
    stoi ('-' :: ds) = .ok (-(decimalValue ds : Int)) := by
  have h1 : ('-' :: ds).takeWhile (fun c => decide (c ≠ '\x00')) = '-' :: ds :=
    takeWhile_all _ _ fun x hx => by
      rcases List.mem_cons.mp hx with rfl | hx
      · decide
      · simpa using isDigit_ne (hd x hx) (d := '\x00') (by decide)
  have h2 : ('-' :: ds).dropWhile isspace = '-' :: ds := by
    rw [List.dropWhile_cons]; rfl
  have h3 : ds.takeWhile Char.isDigit = ds := takeWhile_all _ _ hd
  have hv : ¬ (-(decimalValue ds : Int) < -2147483648 ∨
      2147483647 < -(decimalValue ds : Int)) := by omega
  simp only [stoi, h1, h2, if_true, h3, digitsValue_eq_decimalValue, hv, hne, if_false]

theorem quoted_wrap (p : List Char) : quoted ('"' :: (p ++ ['"'])) = true := by
  have : ('"' :: (p ++ ['"'])).getLast? = some '"' := by
    rw [← List.cons_append, List.getLast?_append]; rfl
  simp [quoted, this]

theorem substr_wrap (p : List Char) :
    substr ('"' :: (p ++ ['"'])) 1 (sizeMinus2 ('"' :: (p ++ ['"']))) = p := by
  have hl : ('"' :: (p ++ ['"'])).length = p.length + 2 := by simp
  have hs : sizeMinus2 ('"' :: (p ++ ['"'])) = p.length := by
    unfold sizeMinus2; rw [hl, if_pos (by omega)]; omega
  rw [hs, substr, List.drop_succ_cons, List.drop_zero, List.take_left']
  rfl

theorem stoi_label (l : IndexLine) (h : l.wellFormed) :
    stoi (if l.negative then '-' :: l.digits else l.digits) = .ok l.label := by
  obtain ⟨-, -, -, hne, hd, hlo, hhi⟩ := h
  unfold IndexLine.label at *
  cases hn : l.negative
  · rw [hn] at hhi
    simpa using stoi_digits l.digits hne hd (by simpa using hhi)
  · rw [hn] at hlo
    simpa using stoi_minus_digits l.digits hne hd (by simpa using hlo)

theorem parseLine_wellFormed (l : IndexLine) (h : l.wellFormed) :
    parseLine l.text = .ok (some l.record) := by
  have hlab := stoi_label l h
  obtain ⟨hcomma, -, hq, hne, hd, -, -⟩ := h
  obtain ⟨c, t, hct⟩ := List.exists_cons_of_ne_nil hne
  have hc : c.isDigit = true := hd c (by rw [hct]; exact List.mem_cons_self _ _)
  generalize hfield : (if l.quotedPath then '"' :: (l.path ++ ['"']) else l.path) = field
  generalize hlabel : (if l.negative then '-' :: l.digits else l.digits) = lab at hlab
  have hf : ∀ x ∈ field, x ≠ ',' := by
    intro x hx
    rw [← hfield] at hx
    split at hx
    · rcases List.mem_cons.mp hx with rfl | hx
      · decide
      · rcases List.mem_append.mp hx with hx | hx
        · rintro rfl; exact hcomma hx
        · rw [List.mem_singleton.mp hx]; decide
    · rintro rfl; exact hcomma hx
  have hl : ∀ x ∈ lab, x ≠ ',' := by
    intro x hx
    rw [← hlabel] at hx
    have hdig : ∀ y ∈ l.digits, y ≠ ',' := fun y hy => isDigit_ne (hd y hy) (by decide)
    split at hx
    · rcases List.mem_cons.mp hx with rfl | hx
      · decide
      · exact hdig x hx
    · exact hdig x hx
  have hlne : lab ≠ [] := by
    rw [← hlabel]; split
    · simp
    · exact hne
  have hql : quoted lab = false := by
    rw [← hlabel, hct]
    have : c ≠ '"' := isDigit_ne hc (by decide)
    split <;> simp [quoted, this]
  have hpath : (if quoted field then substr field 1 (sizeMinus2 field) else field) = l.path := by
    rw [← hfield]
    cases hqp : l.quotedPath
    · simp [hq hqp]
    · simp [quoted_wrap, substr_wrap]
  have htext : l.text = field ++ ',' :: lab := by
    rw [IndexLine.text, hfield, hlabel]
  rw [htext, parseLine, getline_append field lab ',' hf]
  simp only [getline_all lab ',' hlne hl, hpath, hql, Bool.false_eq_true, if_false]
  show (stoi lab >>= fun label => pure (some { path := l.path, label := label }))
    = Except.ok (some l.record)
  rw [hlab]
  rfl

theorem readLoop_nil (b : Int) (fuel : Nat) (i : Int) (d : Nat → Data) :
    readLoop b fuel [] i d = .ok d := by
  cases fuel <;> rfl

theorem readLoop_full (b : Int) (fuel : Nat) (s : List Char) (i : Int) (d : Nat → Data)
    (h : ¬ i < b) : readLoop b fuel s i d = .ok d := by
  cases fuel with
  | zero => rfl
  | succ n =>
    rw [readLoop]
    cases getline s '\n' with
    | none => rfl
    | some p => simp only [h, if_false]

theorem text_no_newline (l : IndexLine) (h : l.wellFormed) : ∀ c ∈ l.text, c ≠ '\n' := by
  obtain ⟨-, hnl, -, -, hd, -, -⟩ := h
  have hdig : ∀ y ∈ l.digits, y ≠ '\n' := fun y hy => isDigit_ne (hd y hy) (by decide)
  have hp : ∀ y ∈ l.path, y ≠ '\n' := fun y hy => by rintro rfl; exact hnl hy
  intro c hc
  unfold IndexLine.text at hc
  rcases List.mem_append.mp hc with hc | hc
  · split at hc
    · rcases List.mem_cons.mp hc with rfl | hc
      · decide
      · rcases List.mem_append.mp hc with hc | hc
        · exact hp c hc
        · rw [List.mem_singleton.mp hc]; decide
    · exact hp c hc
  · rcases List.mem_cons.mp hc with rfl | hc
    · decide
    · split at hc
      · rcases List.mem_cons.mp hc with rfl | hc
        · decide
        · exact hdig c hc
      · exact hdig c hc

theorem text_ne_nil (l : IndexLine) : l.text ≠ [] := by
  unfold IndexLine.text; simp

theorem readLoop_line (b : Int) (fuel : Nat) (l : IndexLine) (rest : List Char) (i : Nat)
    (d : Nat → Data) (h : l.wellFormed) (hi : (i : Int) < b) :
    readLoop b (fuel + 1) (l.text ++ '\n' :: rest) i d
      = readLoop b fuel rest ((i + 1 : Nat) : Int) (Function.update d i l.record) := by
  rw [readLoop, getline_append _ _ _ (text_no_newline l h)]
  simp only [hi, if_true, parseLine_wellFormed l h, Int.toNat_ofNat]
  rfl

theorem readLoop_lastLine (b : Int) (fuel : Nat) (l : IndexLine) (i : Nat)
    (d : Nat → Data) (h : l.wellFormed) (hi : (i : Int) < b) :
    readLoop b (fuel + 1) l.text i d = .ok (Function.update d i l.record) := by
  rw [readLoop, getline_all _ _ (text_ne_nil l) (text_no_newline l h)]
  simp only [hi, if_true, parseLine_wellFormed l h, Int.toNat_ofNat]
  exact readLoop_nil _ _ _ _

theorem readLoop_lines (b : Int) (ls : List IndexLine) (fuel : Nat) (rest : List Char)
    (i : Nat) (d : Nat → Data) (hwf : ∀ l ∈ ls, l.wellFormed)
    (hi : ((i + ls.length : Nat) : Int) ≤ b) (hf : ls.length ≤ fuel) :
    readLoop b fuel (linesText ls ++ rest) i d
      = readLoop b (fuel - ls.length) rest ((i + ls.length : Nat) : Int) (storeFrom i ls d) := by
  induction ls generalizing fuel i d with
  | nil => rfl
  | cons l ls ih =>
    obtain ⟨n, rfl⟩ : ∃ n, fuel = n + 1 := ⟨fuel - 1, by simp at hf; omega⟩
    simp only [List.length_cons] at hi hf
    rw [linesText, List.append_assoc, List.cons_append,
      readLoop_line b n l _ i d (hwf l (List.mem_cons_self _ _)) (by omega),
      ih n (i + 1) _ (fun x hx => hwf x (List.mem_cons_of_mem _ hx)) (by omega) (by omega)]
    simp only [List.length_cons, storeFrom]
    congr 1 <;> omega

theorem storeFrom_lt (ls : List IndexLine) (i k : Nat) (d : Nat → Data) (h : k < i) :
    storeFrom i ls d k = d k := by
  induction ls generalizing i d with
  | nil => rfl
  | cons l ls ih =>
    rw [storeFrom, ih (i + 1) _ (by omega), Function.update_noteq (by omega)]

theorem storeFrom_ge (ls : List IndexLine) (i k : Nat) (d : Nat → Data)
    (h : i + ls.length ≤ k) : storeFrom i ls d k = d k := by
  induction ls generalizing i d with
  | nil => rfl
  | cons l ls ih =>
    simp only [List.length_cons] at h
    rw [storeFrom, ih (i + 1) _ (by omega), Function.update_noteq (by omega)]

theorem storeFrom_get (ls : List IndexLine) (i k : Nat) (d : Nat → Data) (h : k < ls.length) :
    storeFrom i ls d (i + k) = ls[k].record := by
  induction ls generalizing i k d with
  | nil => simp at h
  | cons l ls ih =>
    cases k with
    | zero =>
      rw [storeFrom, storeFrom_lt _ _ _ _ (by omega)]
      exact Function.update_same _ _ _
    | succ k =>
      simp only [List.length_cons] at h
      have := ih (i + 1) k (Function.update d i l.record) (by omega)
      rw [storeFrom, show i + (k + 1) = i + 1 + k by omega, this]
      rfl

theorem storeFrom_concat (ls : List IndexLine) (l : IndexLine) (i : Nat) (d : Nat → Data) :
    storeFrom i (ls ++ [l]) d = Function.update (storeFrom i ls d) (i + ls.length) l.record := by
  induction ls generalizing i d with
  | nil => rfl
  | cons x ls ih =>
    rw [List.cons_append, storeFrom, ih, storeFrom, List.length_cons,
      show i + 1 + ls.length = i + (ls.length + 1) by omega]

theorem linesText_concat (ls : List IndexLine) (l : IndexLine) :
    linesText (ls ++ [l]) = linesText ls ++ (l.text ++ ['\n']) := by
  induction ls with
  | nil => simp [linesText]
  | cons x ls ih => simp [linesText, ih]

theorem length_le_linesText (ls : List IndexLine) : ls.length ≤ (linesText ls).length := by
  induction ls with
  | nil => exact Nat.le_refl _
  | cons x ls ih =>
    rw [linesText, List.length_append, List.length_cons, List.length_cons]
    omega

theorem readLoop_lines_zero (b : Int) (ls : List IndexLine) (fuel : Nat) (rest : List Char)
    (d : Nat → Data) (hwf : ∀ l ∈ ls, l.wellFormed)
    (hi : (ls.length : Int) ≤ b) (hf : ls.length ≤ fuel) :
    readLoop b fuel (linesText ls ++ rest) 0 d
      = readLoop b (fuel - ls.length) rest (ls.length : Int) (storeFrom 0 ls d) := by
  have h := readLoop_lines b ls fuel rest 0 d hwf (by simpa using hi) hf
  simpa using h

theorem readData_header (header body : List Char) (data : Nat → Data) (capacity : Int)
    (hh : '\n' ∉ header) :
    readData (some (header ++ '\n' :: body)) data capacity
      = (readLoop capacity (body.length + 1) body 0 data).map fun d => (true, d) := by
  have : ∀ c ∈ header, c ≠ '\n' := fun c hc => by rintro rfl; exact hh hc
  simp only [readData, getline_append header body '\n' this]

theorem readLoop_dataText (capacity : Int) (ls : List IndexLine) (finalNewline : Bool)
    (data : Nat → Data) (hwf : ∀ l ∈ ls, l.wellFormed) (hcap : (ls.length : Int) ≤ capacity) :
    readLoop capacity ((dataText ls finalNewline).length + 1) (dataText ls finalNewline) 0 data
      = .ok (storeFrom 0 ls data) := by
  cases finalNewline with
  | true =>
    have h := readLoop_lines_zero capacity ls ((linesText ls).length + 1) [] data hwf
      hcap (by have := length_le_linesText ls; omega)
    rw [List.append_nil] at h
    simp only [dataText, if_true]
    rw [h]
    exact readLoop_nil _ _ _ _
  | false =>
    simp only [dataText, Bool.false_eq_true, if_false]
    induction ls using List.reverseRecOn with
    | nil => exact readLoop_nil _ _ _ _
    | append_singleton ls0 l _ =>
      have hbody : (linesText (ls0 ++ [l])).dropLast = linesText ls0 ++ l.text := by
        rw [linesText_concat, ← List.append_assoc, List.dropLast_concat]
      rw [hbody]
      have hlen := length_le_linesText ls0
      simp only [List.length_append, List.length_singleton, Nat.cast_add, Nat.cast_one] at hcap
      have hwf0 : ∀ x ∈ ls0, x.wellFormed := fun x hx => hwf x (List.mem_append_left _ hx)
      rw [readLoop_lines_zero capacity ls0 _ l.text data hwf0 (by omega)
        (by simp only [List.length_append]; omega)]
      obtain ⟨n, hn⟩ : ∃ n, (linesText ls0 ++ l.text).length + 1 - ls0.length = n + 1 :=
        ⟨(linesText ls0 ++ l.text).length - ls0.length, by
          simp only [List.length_append]; omega⟩
      rw [hn, readLoop_lastLine capacity n l _ _ (hwf l (by simp)) (by omega),
        storeFrom_concat, Nat.zero_add]

theorem readLoop_truncated (ls : List IndexLine) (rest : List Char) (data : Nat → Data)
    (hwf : ∀ l ∈ ls, l.wellFormed) :
    readLoop (ls.length : Int) ((linesText ls ++ rest).length + 1) (linesText ls ++ rest) 0 data
      = .ok (storeFrom 0 ls data) := by
  rw [readLoop_lines_zero (ls.length : Int) ls _ rest data hwf (Int.le_refl _)
    (by have := length_le_linesText ls; simp only [List.length_append]; omega)]
  exact readLoop_full _ _ _ _ _ (by simp)

/-- C4 as stated fails: a label that is a decimal integer but no value of an
`int` makes `std::stoi` throw `out_of_range`; no record is stored and
`readData` does not return. -/
theorem readData_label_range_counterexample :
    readData (some "header\na.png,2147483648\n".toList) (fun _ => ⟨[], 0⟩) 1
      = .error .out_of_range := by
  rfl

/-- C4, amended. Dataset parsing by `readData`: for every index file made of
one header line followed by `n` well-formed lines `path,label` (path without
a comma, optionally wrapped in double quotes; label an unquoted decimal
integer that is a value of a 32-bit `int`), the last line ended by a line
break or not, and every capacity `≥ n`, `readData` returns `true` and fills
entries `0..n-1`, in file order, with the path stripped of its wrapping quotes
and the label as the integer; the other entries are left as they were. -/
theorem readData_wellFormed (header : List Char) (ls : List IndexLine) (finalNewline : Bool)
    (data : Nat → Data) (capacity : Int) (hh : '\n' ∉ header)
    (hwf : ∀ l ∈ ls, l.wellFormed) (hcap : (ls.length : Int) ≤ capacity) :
    ∃ out, readData (some (header ++ '\n' :: dataText ls finalNewline)) data capacity
        = .ok (true, out)
      ∧ (∀ k (hk : k < ls.length), out k = ls[k].record)
      ∧ ∀ k, ls.length ≤ k → out k = data k := by
  refine ⟨storeFrom 0 ls data, ?_, ?_, ?_⟩
  · rw [readData_header _ _ _ _ hh, readLoop_dataText capacity ls finalNewline data hwf hcap]
    rfl
  · intro k hk
    have := storeFrom_get ls 0 k data hk
    rwa [Nat.zero_add] at this
  · intro k hk
    exact storeFrom_ge ls 0 k data (by omega)

/-- Witness of C4 (amended): the index `header`, `"a.png",1`, `b.png,0` read
with capacity 2 gives `(a.png, 1)` and `(b.png, 0)`. -/
theorem readData_wellFormed_witness :
    ∃ out, readData (some "header\n\"a.png\",1\nb.png,0\n".toList) (fun _ => ⟨[], 0⟩) 2
        = .ok (true, out)
      ∧ out 0 = ⟨"a.png".toList, 1⟩ ∧ out 1 = ⟨"b.png".toList, 0⟩ := by
  obtain ⟨out, h1, h2, -⟩ := readData_wellFormed "header".toList
    [⟨"a.png".toList, true, false, ['1']⟩, ⟨"b.png".toList, false, false, ['0']⟩] true
    (fun _ => ⟨[], 0⟩) 2 (by decide) (by decide) (by decide)
  exact ⟨out, h1, h2 0 (by decide), h2 1 (by decide)⟩

/-- C5. Capacity truncation in `readData`: for every index file whose header
is followed by `c` well-formed data lines and then by any further text, read
with capacity `c`, `readData` returns `true`, stores exactly the records of
the first `c` data lines in file order at entries `0..c-1`, writes no entry at
index `c` or beyond, and raises no error whatever the later lines contain. -/
theorem readData_truncates (header : List Char) (ls : List IndexLine) (rest : List Char)
    (data : Nat → Data) (hh : '\n' ∉ header) (hwf : ∀ l ∈ ls, l.wellFormed) :
    ∃ out, readData (some (header ++ '\n' :: (linesText ls ++ rest))) data (ls.length : Int)
        = .ok (true, out)
      ∧ (∀ k (hk : k < ls.length), out k = ls[k].record)
      ∧ ∀ k, ls.length ≤ k → out k = data k := by
  refine ⟨storeFrom 0 ls data, ?_, ?_, ?_⟩
  · rw [readData_header _ _ _ _ hh, readLoop_truncated ls rest data hwf]
    rfl
  · intro k hk
    have := storeFrom_get ls 0 k data hk
    rwa [Nat.zero_add] at this
  · intro k hk
    exact storeFrom_ge ls 0 k data (by omega)

/-- Witness of C5: capacity 1, one well-formed line, then a line whose label
is not a number and a line without a comma. -/
theorem readData_truncates_witness :
    ∃ out, readData (some "header\n\"a.png\",1\nb.png,zero\njunk\n".toList)
          (fun _ => ⟨[], 0⟩) 1
        = .ok (true, out)
      ∧ out 0 = ⟨"a.png".toList, 1⟩ ∧ out 1 = ⟨[], 0⟩ := by
  obtain ⟨out, h1, h2, h3⟩ := readData_truncates "header".toList
    [⟨"a.png".toList, true, false, ['1']⟩] "b.png,zero\njunk\n".toList
    (fun _ => ⟨[], 0⟩) (by decide) (by decide)
  exact ⟨out, h1, h2 0 (by decide), h3 1 (by decide)⟩

/-- C6 fails on the code: the line `a.png,"7"` makes `readData` throw
`invalid_argument` (the quoted label is replaced by the single character of
code 7, which `std::stoi` rejects), whereas `a.png,7` stores the label 7; a
quoted label is only accepted when its value modulo 256 is the code of a
digit, as in `a.png,"55"`, stored with label 7. -/
theorem readData_quoted_label :
    readData (some "header\na.png,\"7\"\n".toList) (fun _ => ⟨[], 0⟩) 1
        = .error .invalid_argument
      ∧ (readData (some "header\na.png,7\n".toList) (fun _ => ⟨[], 0⟩) 1).map
          (fun r => (r.1, r.2 0)) = .ok (true, ⟨"a.png".toList, 7⟩)
      ∧ (readData (some "header\na.png,\"55\"\n".toList) (fun _ => ⟨[], 0⟩) 1).map
          (fun r => (r.1, r.2 0)) = .ok (true, ⟨"a.png".toList, 7⟩) := by
  refine ⟨?_, ?_, ?_⟩ <;> rfl

theorem getline_length {s : List Char} {d : Char} {line rest : List Char}
    (h : getline s d = some (line, rest)) : rest.length < s.length := by
  cases s with
  | nil => simp [getline] at h
  | cons x xs =>
    rw [getline_cons] at h
    injection h with h
    injection h with _ h2
    rw [← h2, List.length_drop]
    have h3 : ((x :: xs).dropWhile fun c => decide (c ≠ d)).length ≤ (x :: xs).length :=
      (List.dropWhile_sublist _).length_le
    simp only [List.length_cons] at h3 ⊢
    omega

/-- The bound on the number of iterations never cuts the loop of `readData`
short: any two bounds above the number of unread characters give the same
result. -/
theorem readLoop_fuel (b : Int) (fuel1 fuel2 : Nat) (s : List Char) (i : Int) (d : Nat → Data)
    (h1 : s.length < fuel1) (h2 : s.length < fuel2) :
    readLoop b fuel1 s i d = readLoop b fuel2 s i d := by
  induction fuel1 generalizing fuel2 s i d with
  | zero => omega
  | succ n ih =>
    obtain ⟨m, rfl⟩ : ∃ m, fuel2 = m + 1 := ⟨fuel2 - 1, by omega⟩
    rw [readLoop, readLoop]
    cases hg : getline s '\n' with
    | none => rfl
    | some p =>
      obtain ⟨line, rest⟩ := p
      have hl := getline_length hg
      simp only []
      split
      · cases parseLine line with
        | error e => rfl
        | ok r =>
          cases r with
          | none => exact ih m rest i d (by omega) (by omega)
          | some rec => exact ih m rest _ _ (by omega) (by omega)
      · rfl

/-! ## Theorems: Normalize -/

theorem mapM_eq_some_map {α β : Type} (l : List α) (f : α → Option β) (g : α → β)
    (h : ∀ x ∈ l, f x = some (g x)) : l.mapM f = some (l.map g) := by
  induction l with
  | nil => rfl
  | cons x l ih =>
    rw [List.mapM_cons, h x (List.mem_cons_self _ _),
      ih fun y hy => h y (List.mem_cons_of_mem _ hy)]
    rfl

theorem pixel_index_bound {i n c : Nat} (hi : i < n) (hc : 3 ≤ c) : i * c + 2 < n * c := by
  have h1 : (i + 1) * c ≤ n * c := Nat.mul_le_mul_right c hi
  rw [Nat.add_mul, Nat.one_mul] at h1
  omega

theorem floor_ratio (j w nw : Nat) :
    ⌊(j : ℚ) * ((w : ℚ) / (nw : ℚ))⌋ = ((j * w / nw : Nat) : Int) := by
  rw [← mul_div_assoc, ← Nat.cast_mul, Rat.floor_natCast_div_natCast]
  norm_cast

theorem scaled_index_lt {i n m : Nat} (hm : 0 < m) (hi : i < n) : i * m / n < m := by
  apply Nat.div_lt_of_lt_mul
  rw [Nat.mul_comm n m, Nat.mul_comm i m]
  exact Nat.mul_lt_mul_of_pos_left hi hm

theorem nearest_lt (w h nw nh i j : Nat) (hw : 0 < w) (hh : 0 < h)
    (hi : i < nh) (hj : j < nw) : nearest w h nw nh i j < w * h := by
  have h1 : i * h / nh < h := scaled_index_lt hh hi
  have h2 : j * w / nw < w := scaled_index_lt hw hj
  have h3 : (i * h / nh + 1) * w ≤ h * w := Nat.mul_le_mul_right w h1
  rw [Nat.add_mul, Nat.one_mul] at h3
  rw [Nat.mul_comm w h]
  unfold nearest
  omega

theorem length_rows {α : Type} (f : Nat → Nat → α) (nw nh : Nat) :
    (((List.range nh).map fun i => (List.range nw).map (f i)).flatten).length = nh * nw := by
  induction nh with
  | zero => simp
  | succ n ih =>
    rw [List.range_succ, List.map_append, List.flatten_append, List.length_append, ih]
    simp [Nat.succ_mul]

theorem getElem?_rows {α : Type} (f : Nat → Nat → α) (nw nh i j : Nat) (hi : i < nh)
    (hj : j < nw) :
    (((List.range nh).map fun i => (List.range nw).map (f i)).flatten)[i * nw + j]?
      = some (f i j) := by
  induction nh with
  | zero => omega
  | succ n ih =>
    rw [List.range_succ, List.map_append, List.flatten_append]
    rcases Nat.lt_succ_iff_lt_or_eq.mp hi with hlt | heq
    · have hb : i * nw + j < n * nw := by
        have : (i + 1) * nw ≤ n * nw := Nat.mul_le_mul_right nw hlt
        rw [Nat.add_mul, Nat.one_mul] at this
        omega
      rw [List.getElem?_append_left (by rw [length_rows]; exact hb)]
      exact ih hlt
    · subst heq
      rw [List.getElem?_append_right (by rw [length_rows]; omega), length_rows]
      simp [hj]

theorem mem_rows {α : Type} (f : Nat → Nat → α) (nw nh : Nat) (x : α)
    (hx : x ∈ ((List.range nh).map fun i => (List.range nw).map (f i)).flatten) :
    ∃ i j, i < nh ∧ j < nw ∧ x = f i j := by
  simp only [List.mem_flatten, List.mem_map, List.mem_range] at hx
  obtain ⟨row, ⟨i, hi, rfl⟩, hxr⟩ := hx
  simp only [List.mem_map, List.mem_range] at hxr
  obtain ⟨j, hj, rfl⟩ := hxr
  exact ⟨i, j, hi, hj, rfl⟩

/-! ## Theorems: open failure, readImg, polarity -/

/-- C15. Open failure aborts the operation: when the file cannot be opened,
`loadModel` leaves the container exactly as it was (no layer destroyed, none
added) and `saveModel`, which only ever reads the model, writes nothing;
both return normally. -/
theorem open_failure (NN : List Layer) :
    loadModel none NN = some NN ∧ saveModel false NN = none :=
  ⟨rfl, rfl⟩

theorem readImg_eq (temp : Decoded)
    (hlen : temp.data.length = temp.width * temp.height * temp.channels) (pixArr : List ℚ) :
    readImg (some temp) pixArr = some (true, temp.data.map fun b => ((b.val : Nat) : ℚ)) := by
  have h : ((List.range (temp.width * temp.height * temp.channels)).mapM fun i =>
      (temp.data[i]?).map fun b => ((b.val : Nat) : ℚ))
      = some ((List.range temp.data.length).map fun i => ((temp.data.getD i 0).val : ℚ)) := by
    rw [← hlen]
    apply mapM_eq_some_map
    intro i hi
    have hi := List.mem_range.mp hi
    rw [List.getElem?_eq_getElem hi, List.getD_eq_getElem _ _ hi]
    rfl
  have hm : ((List.range temp.data.length).map fun i => ((temp.data.getD i 0).val : ℚ))
      = temp.data.map fun b => ((b.val : Nat) : ℚ) := by
    apply List.ext_getElem
    · simp
    · intro k h1 h2
      have hk : k < temp.data.length := by simpa using h1
      simp [List.getElem?_eq_getElem hk]
  unfold readImg
  simp only [h, hm, Option.map_some']

/-- C16. `readImg` on a successful decode: when the decoder returns raw bytes
with a width, height and channel count (width × height × channels bytes),
`readImg` returns `true` and the pixel buffer has exactly
width × height × channels samples, sample `k` being the numeric value of
decoded byte `k`, in the decoder's order and without scaling, so every sample
is an integer in [0,255]. -/
theorem readImg_decoded (temp : Decoded) (pixArr : List ℚ)
    (hlen : temp.data.length = temp.width * temp.height * temp.channels) :
    ∃ out, readImg (some temp) pixArr = some (true, out)
      ∧ out.length = temp.width * temp.height * temp.channels
      ∧ (∀ k (hk : k < temp.data.length), out[k]? = some ((temp.data[k].val : Nat) : ℚ))
      ∧ ∀ x ∈ out, ∃ n : Nat, n ≤ 255 ∧ x = (n : ℚ) := by
  refine ⟨_, readImg_eq temp hlen pixArr, ?_, ?_, ?_⟩
  · rw [List.length_map, hlen]
  · intro k hk
    rw [List.getElem?_map, List.getElem?_eq_getElem hk]
    rfl
  · intro x hx
    obtain ⟨b, -, rfl⟩ := List.mem_map.mp hx
    exact ⟨b.val, by omega, rfl⟩

/-- Witness of C16: a decoded 1×2 image with 3 channels. -/
theorem readImg_decoded_witness :
    ∃ out, readImg (some ⟨[0, 255, 7, 9, 1, 2], 1, 2, 3⟩) [] = some (true, out)
      ∧ out.length = 1 * 2 * 3
      ∧ (∀ k (hk : k < ([0, 255, 7, 9, 1, 2] : List Byte).length),
          out[k]? = some (((([0, 255, 7, 9, 1, 2] : List Byte)[k]).val : Nat) : ℚ))
      ∧ ∀ x ∈ out, ∃ n : Nat, n ≤ 255 ∧ x = (n : ℚ) :=
  readImg_decoded ⟨[0, 255, 7, 9, 1, 2], 1, 2, 3⟩ [] (by decide)

/-- C17. The polarity inversion of `Normalize` is its own inverse: for every
buffer holding the `total_pixels` samples the loop goes over, the inversion
loop returns a buffer on which the inversion loop returns the original
buffer. -/
theorem invert_invert (pixArr : List ℚ) (total_pixels : Nat)
    (h : total_pixels ≤ pixArr.length) :
    ∃ once, invert pixArr total_pixels = some once
      ∧ once.length = pixArr.length
      ∧ invert once total_pixels = some pixArr := by
  have hl : ((pixArr.take total_pixels).map (fun x => 1 - x)
      ++ pixArr.drop total_pixels).length = pixArr.length := by
    simp only [List.length_append, List.length_map, List.length_take, List.length_drop]
    omega
  have ht : (pixArr.take total_pixels).length = total_pixels := by
    rw [List.length_take]; omega
  refine ⟨_, by rw [invert, if_pos h], hl, ?_⟩
  rw [invert, if_pos (by rw [hl]; exact h)]
  congr 1
  have h1 : ((pixArr.take total_pixels).map (fun x => 1 - x)).length = total_pixels := by
    rw [List.length_map, ht]
  rw [List.take_left' h1, List.drop_left' h1, List.map_map]
  have hid : ((fun x : ℚ => 1 - x) ∘ fun x => 1 - x) = id := by
    funext x; simp
  rw [hid, List.map_id, List.take_append_drop]

/-- Witness of C17: a buffer of three samples. -/
theorem invert_invert_witness :
    ∃ once, invert [0, 1 / 4, 1] 3 = some once
      ∧ once.length = ([0, 1 / 4, 1] : List ℚ).length
      ∧ invert once 3 = some [0, 1 / 4, 1] :=
  invert_invert [0, 1 / 4, 1] 3 (by decide)

theorem sum_map_one_sub (l : List ℚ) :
    (l.map fun x => 1 - x).sum = (l.length : ℚ) - l.sum := by
  induction l with
  | nil => simp
  | cons x l ih =>
    simp only [List.map_cons, List.sum_cons, List.length_cons, ih]
    push_cast
    ring

theorem resizePixel_index (pixArr : List ℚ) (width : Nat) (x_ratio y_ratio : ℚ) (i j : Nat) :
    resizePixel pixArr width x_ratio y_ratio i j
      = if sourceIndex width x_ratio y_ratio i j < 0 then none
        else pixArr[(sourceIndex width x_ratio y_ratio i j).toNat]? := rfl

theorem sourceIndex_eq (w h nw nh i j : Nat) :
    sourceIndex w ((w : ℚ) / (nw : ℚ)) ((h : ℚ) / (nh : ℚ)) i j
      = ((nearest w h nw nh i j : Nat) : Int) := by
  simp only [sourceIndex, floor_ratio, nearest]
  push_cast
  rfl

/-- C18. Resize indices stay in range, with the ratios and products taken as
exact numbers: for every positive width and height and every target size,
enlargement included, the source index
`floor(i*y_ratio)*width + floor(j*x_ratio)` read by the resize step of
`Normalize` for `i < targetHeight` and `j < targetWidth` equals
`floor(i*height/targetHeight)*width + floor(j*width/targetWidth)`, is `≥ 0` and
`< width × height`, and is the index at which the step reads the buffer. -/
theorem sourceIndex_in_range (width height newWidth newHeight i j : Nat)
    (hw : 0 < width) (hh : 0 < height) (hi : i < newHeight) (hj : j < newWidth) :
    0 ≤ sourceIndex width ((width : ℚ) / (newWidth : ℚ)) ((height : ℚ) / (newHeight : ℚ)) i j
      ∧ sourceIndex width ((width : ℚ) / (newWidth : ℚ)) ((height : ℚ) / (newHeight : ℚ)) i j
          < ((width * height : Nat) : Int)
      ∧ sourceIndex width ((width : ℚ) / (newWidth : ℚ)) ((height : ℚ) / (newHeight : ℚ)) i j
          = (((i * height / newHeight) * width + j * width / newWidth : Nat) : Int)
      ∧ ∀ pixArr : List ℚ,
          resizePixel pixArr width ((width : ℚ) / (newWidth : ℚ))
              ((height : ℚ) / (newHeight : ℚ)) i j
            = pixArr[(i * height / newHeight) * width + j * width / newWidth]? := by
  have he := sourceIndex_eq width height newWidth newHeight i j
  have hlt := nearest_lt width height newWidth newHeight i j hw hh hi hj
  refine ⟨by rw [he]; exact Int.ofNat_nonneg _, by rw [he]; exact_mod_cast hlt, he, ?_⟩
  intro pixArr
  rw [resizePixel_index, he, if_neg (by omega), Int.toNat_ofNat]
  rfl

/-- Witness of C18: enlargement of a 2×2 image to 5×3, last row and column. -/
theorem sourceIndex_in_range_witness :
    0 ≤ sourceIndex 2 (((2 : Nat) : ℚ) / ((5 : Nat) : ℚ))
          (((2 : Nat) : ℚ) / ((3 : Nat) : ℚ)) 2 4
      ∧ sourceIndex 2 (((2 : Nat) : ℚ) / ((5 : Nat) : ℚ))
          (((2 : Nat) : ℚ) / ((3 : Nat) : ℚ)) 2 4 < ((2 * 2 : Nat) : Int)
      ∧ sourceIndex 2 (((2 : Nat) : ℚ) / ((5 : Nat) : ℚ))
          (((2 : Nat) : ℚ) / ((3 : Nat) : ℚ)) 2 4
          = (((2 * 2 / 3) * 2 + 4 * 2 / 5 : Nat) : Int)
      ∧ ∀ pixArr : List ℚ,
          resizePixel pixArr 2 (((2 : Nat) : ℚ) / ((5 : Nat) : ℚ))
              (((2 : Nat) : ℚ) / ((3 : Nat) : ℚ)) 2 4
            = pixArr[(2 * 2 / 3) * 2 + 4 * 2 / 5]? :=
  sourceIndex_in_range 2 2 5 3 2 4 (by decide) (by decide) (by decide) (by decide)

/-! ## Theorems: header, malformed and non-numeric lines of a dataset index -/

theorem readData_single_line (first : List Char) (data : Nat → Data) (capacity : Int)
    (hf : '\n' ∉ first) : readData (some first) data capacity = .ok (true, data) := by
  cases first with
  | nil => rfl
  | cons c t =>
    have : ∀ x ∈ c :: t, x ≠ '\n' := fun x hx => by rintro rfl; exact hf hx
    simp only [readData, getline_all (c :: t) '\n' (by simp) this]
    rfl

/-- C12. Header skip in `readData`: for every index file, the first line never
produces a record, whatever its content (also when it is itself a well-formed
`path,label` line): the outcome is the one obtained with any other first line
in front of the same lines 2 onward, and a file that consists of its first
line only leaves the array untouched. -/
theorem readData_skips_first_line (first other body : List Char) (data : Nat → Data)
    (capacity : Int) (hf : '\n' ∉ first) (ho : '\n' ∉ other) :
    readData (some (first ++ '\n' :: body)) data capacity
        = readData (some (other ++ '\n' :: body)) data capacity
      ∧ readData (some first) data capacity = .ok (true, data) := by
  refine ⟨?_, readData_single_line first data capacity hf⟩
  rw [readData_header first body data capacity hf, readData_header other body data capacity ho]

/-- Witness of C12: a first line that is itself a well-formed data line; only
the second line is stored. -/
theorem readData_skips_first_line_witness :
    (readData (some "a.png,1\nb.png,0\n".toList) (fun _ => ⟨[], 0⟩) 2
        = readData (some "header\nb.png,0\n".toList) (fun _ => ⟨[], 0⟩) 2
      ∧ readData (some "a.png,1".toList) (fun _ => ⟨[], 0⟩) 2 = .ok (true, fun _ => ⟨[], 0⟩))
      ∧ (readData (some "a.png,1\nb.png,0\n".toList) (fun _ => ⟨[], 0⟩) 2).map
          (fun r => (r.1, r.2 0, r.2 1)) = .ok (true, ⟨"b.png".toList, 0⟩, ⟨[], 0⟩) :=
  ⟨readData_skips_first_line "a.png,1".toList "header".toList "b.png,0\n".toList
    (fun _ => ⟨[], 0⟩) 2 (by decide) (by decide), rfl⟩

theorem parseLine_malformed (m : List Char) (hm : fewerThanTwoFields m) :
    parseLine m = .ok none := by
  rcases hm with hno | ⟨hlast, hno⟩
  · cases m with
    | nil => rfl
    | cons c t =>
      have : ∀ x ∈ c :: t, x ≠ ',' := fun x hx => by rintro rfl; exact hno hx
      rw [parseLine, getline_all (c :: t) ',' (by simp) this]
      rfl
  · have hsplit : m = m.dropLast ++ [','] := by
      have hne : m ≠ [] := by rintro rfl; simp at hlast
      have h1 := List.dropLast_append_getLast hne
      rw [List.getLast?_eq_getLast _ hne] at hlast
      injection hlast with hlast
      rw [hlast] at h1
      exact h1.symm
    have : ∀ x ∈ m.dropLast, x ≠ ',' := fun x hx => by rintro rfl; exact hno hx
    rw [hsplit, parseLine, getline_append m.dropLast [] ',' this]
    rfl

theorem readLoop_skip (b : Int) (fuel : Nat) (m rest : List Char) (i : Int) (d : Nat → Data)
    (hnl : '\n' ∉ m) (hp : parseLine m = .ok none) :
    readLoop b (fuel + 1) (m ++ '\n' :: rest) i d = readLoop b fuel rest i d := by
  have : ∀ x ∈ m, x ≠ '\n' := fun x hx => by rintro rfl; exact hnl hx
  rw [readLoop, getline_append m rest '\n' this]
  by_cases hi : i < b
  · simp only [hi, if_true, hp]
  · simp only [hi, if_false]
    exact (readLoop_full b fuel rest i d hi).symm

theorem storeFrom_append (a c : List IndexLine) (i : Nat) (d : Nat → Data) :
    storeFrom i (a ++ c) d = storeFrom (i + a.length) c (storeFrom i a d) := by
  induction a generalizing i d with
  | nil => rfl
  | cons x a ih =>
    rw [List.cons_append, storeFrom, ih, storeFrom, List.length_cons,
      show i + 1 + a.length = i + (a.length + 1) by omega]

theorem readLoop_dataText_at (capacity : Int) (ls : List IndexLine) (finalNewline : Bool)
    (data : Nat → Data) (i fuel : Nat) (hwf : ∀ l ∈ ls, l.wellFormed)
    (hcap : ((i + ls.length : Nat) : Int) ≤ capacity)
    (hf : (dataText ls finalNewline).length < fuel) :
    readLoop capacity fuel (dataText ls finalNewline) i data = .ok (storeFrom i ls data) := by
  cases finalNewline with
  | true =>
    simp only [dataText, if_true] at hf ⊢
    have h := readLoop_lines capacity ls fuel [] i data hwf hcap
      (by have := length_le_linesText ls; omega)
    rw [List.append_nil] at h
    rw [h]
    exact readLoop_nil _ _ _ _
  | false =>
    simp only [dataText, Bool.false_eq_true, if_false] at hf ⊢
    induction ls using List.reverseRecOn with
    | nil => exact readLoop_nil _ _ _ _
    | append_singleton ls0 l _ =>
      have hbody : (linesText (ls0 ++ [l])).dropLast = linesText ls0 ++ l.text := by
        rw [linesText_concat, ← List.append_assoc, List.dropLast_concat]
      rw [hbody] at hf ⊢
      have hlen := length_le_linesText ls0
      simp only [List.length_append, List.length_singleton] at hcap hf
      have hwf0 : ∀ x ∈ ls0, x.wellFormed := fun x hx => hwf x (List.mem_append_left _ hx)
      rw [readLoop_lines capacity ls0 fuel l.text i data hwf0 (by push_cast at hcap ⊢; omega)
        (by omega)]
      obtain ⟨n, hn⟩ : ∃ n, fuel - ls0.length = n + 1 := ⟨fuel - ls0.length - 1, by omega⟩
      rw [hn, readLoop_lastLine capacity n l _ _ (hwf l (by simp))
        (by push_cast at hcap ⊢; omega), storeFrom_concat]

theorem readLoop_around_malformed (capacity : Int) (ls1 ls2 : List IndexLine) (m : List Char)
    (finalNewline : Bool) (data : Nat → Data)
    (hwf1 : ∀ l ∈ ls1, l.wellFormed) (hm : fewerThanTwoFields m) (hnl : '\n' ∉ m)
    (hwf2 : ∀ l ∈ ls2, l.wellFormed)
    (hcap : ((ls1.length + ls2.length : Nat) : Int) ≤ capacity) :
    readLoop capacity ((linesText ls1 ++ (m ++ '\n' :: dataText ls2 finalNewline)).length + 1)
        (linesText ls1 ++ (m ++ '\n' :: dataText ls2 finalNewline)) 0 data
      = .ok (storeFrom 0 (ls1 ++ ls2) data) := by
  have hlen := length_le_linesText ls1
  rw [readLoop_lines_zero capacity ls1 _ _ data hwf1 (by push_cast at hcap ⊢; omega)
    (by simp only [List.length_append]; omega)]
  obtain ⟨n, hn, hlt⟩ : ∃ n,
      (linesText ls1 ++ (m ++ '\n' :: dataText ls2 finalNewline)).length + 1 - ls1.length = n + 1
      ∧ (dataText ls2 finalNewline).length < n :=
    ⟨(linesText ls1 ++ (m ++ '\n' :: dataText ls2 finalNewline)).length - ls1.length, by
      simp only [List.length_append, List.length_cons]; omega, by
      simp only [List.length_append, List.length_cons]; omega⟩
  rw [hn, readLoop_skip capacity n m _ _ _ hnl (parseLine_malformed m hm)]
  have h := readLoop_dataText_at capacity ls2 finalNewline (storeFrom 0 ls1 data) ls1.length n
    hwf2 hcap hlt
  rw [h, storeFrom_append, Nat.zero_add]

/-- C13. Malformed lines in `readData`: a data line with fewer than two
comma-delimited fields (no comma, or nothing after its only comma) produces no
record and does not end the read: when it stands between well-formed lines and
the capacity is enough for these, `readData` returns `true` and the records of
the well-formed lines before and after it are stored contiguously, in file
order, from entry 0 on; the other entries are left as they were. -/
theorem readData_skips_malformed (header : List Char) (ls1 : List IndexLine) (m : List Char)
    (ls2 : List IndexLine) (finalNewline : Bool) (data : Nat → Data) (capacity : Int)
    (hh : '\n' ∉ header) (hwf1 : ∀ l ∈ ls1, l.wellFormed)
    (hm : fewerThanTwoFields m) (hnl : '\n' ∉ m) (hwf2 : ∀ l ∈ ls2, l.wellFormed)
    (hcap : (((ls1 ++ ls2).length : Nat) : Int) ≤ capacity) :
    ∃ out, readData
          (some (header ++ '\n' :: (linesText ls1 ++ (m ++ '\n' :: dataText ls2 finalNewline))))
          data capacity
        = .ok (true, out)
      ∧ (∀ k (hk : k < (ls1 ++ ls2).length), out k = (ls1 ++ ls2)[k].record)
      ∧ ∀ k, (ls1 ++ ls2).length ≤ k → out k = data k := by
  refine ⟨storeFrom 0 (ls1 ++ ls2) data, ?_, ?_, ?_⟩
  · rw [readData_header _ _ _ _ hh,
      readLoop_around_malformed capacity ls1 ls2 m finalNewline data hwf1 hm hnl hwf2
        (by rw [List.length_append] at hcap; exact hcap)]
    rfl
  · intro k hk
    have := storeFrom_get (ls1 ++ ls2) 0 k data hk
    rwa [Nat.zero_add] at this
  · intro k hk
    exact storeFrom_ge (ls1 ++ ls2) 0 k data (by omega)

/-- Witness of C13: a line without comma between two well-formed lines. -/
theorem readData_skips_malformed_witness :
    ∃ out, readData (some "header\n\"a.png\",1\njunk\nb.png,0\n".toList) (fun _ => ⟨[], 0⟩) 2
        = .ok (true, out)
      ∧ out 0 = ⟨"a.png".toList, 1⟩ ∧ out 1 = ⟨"b.png".toList, 0⟩ ∧ out 2 = ⟨[], 0⟩ := by
  obtain ⟨out, h1, h2, h3⟩ := readData_skips_malformed "header".toList
    [⟨"a.png".toList, true, false, ['1']⟩] "junk".toList
    [⟨"b.png".toList, false, false, ['0']⟩] true
    (fun _ => ⟨[], 0⟩) 2 (by decide) (by decide) (by decide) (by decide) (by decide) (by decide)
  exact ⟨out, h1, h2 0 (by decide), h2 1 (by decide), h3 2 (by decide)⟩

theorem isspace_nul : isspace '\x00' = false := by decide

theorem dropWhile_takeWhile_nul (s : List Char) :
    (s.takeWhile fun c => decide (c ≠ '\x00')).dropWhile isspace
      = (s.dropWhile isspace).takeWhile fun c => decide (c ≠ '\x00') := by
  induction s with
  | nil => rfl
  | cons c s ih =>
    by_cases hc : c = '\x00'
    · subst hc
      rw [List.dropWhile_cons, isspace_nul]
      simp
    · by_cases hs : isspace c = true
      · rw [List.takeWhile_cons, if_pos (by simpa using hc), List.dropWhile_cons, if_pos hs,
          List.dropWhile_cons, if_pos hs, ih]
      · rw [List.takeWhile_cons, if_pos (by simpa using hc), List.dropWhile_cons, if_neg hs,
          List.dropWhile_cons, if_neg hs, List.takeWhile_cons, if_pos (by simpa using hc)]

theorem takeWhile_digit_nil (l : List Char)
    (h : (match l with
      | [] => false
      | c :: _ => c.isDigit) = false) :
    ((l.takeWhile fun c => decide (c ≠ '\x00')).takeWhile Char.isDigit) = [] := by
  cases l with
  | nil => rfl
  | cons c t =>
    simp only [] at h
    by_cases hc : c = '\x00'
    · subst hc; simp
    · rw [List.takeWhile_cons, if_pos (by simpa using hc), List.takeWhile_cons, h]
      rfl

theorem stoi_nonNumeric (s : List Char) (h : beginsWithNumeral s = false) :
    stoi s = .error .invalid_argument := by
  unfold stoi
  rw [dropWhile_takeWhile_nul]
  unfold beginsWithNumeral at h
  generalize s.dropWhile isspace = t at h
  cases t with
  | nil => rfl
  | cons c r =>
    by_cases hc : c = '\x00'
    · subst hc
      simp
    · rw [List.takeWhile_cons, if_pos (by simpa using hc)]
      by_cases hm : c = '-'
      · subst hm
        have hr := takeWhile_digit_nil r (by simpa [afterSign] using h)
        simp only [if_true, hr]
      · by_cases hp : c = '+'
        · subst hp
          have hr := takeWhile_digit_nil r (by simpa [afterSign] using h)
          simp only [hm, if_false, if_true, hr]
        · have hd : c.isDigit = false := by simpa [afterSign, hm, hp] using h
          simp only [hm, hp, if_false, List.takeWhile_cons, hd]
          rfl

theorem parseLine_nonNumeric (l : LabelLine) (h : l.nonNumeric) :
    parseLine l.text = .error .invalid_argument := by
  obtain ⟨hpc, -, hlc, -, hunq, hnum⟩ := h
  have hstoi := stoi_nonNumeric l.label hnum
  generalize hfield : (if l.quotedLabel then '"' :: (l.label ++ ['"']) else l.label) = lab
  have hp : ∀ x ∈ l.pathField, x ≠ ',' := fun x hx => by rintro rfl; exact hpc hx
  have hlab : ∀ x ∈ l.label, x ≠ ',' := fun x hx => by rintro rfl; exact hlc hx
  have hl : ∀ x ∈ lab, x ≠ ',' := by
    intro x hx
    rw [← hfield] at hx
    split at hx
    · rcases List.mem_cons.mp hx with rfl | hx
      · decide
      · rcases List.mem_append.mp hx with hx | hx
        · exact hlab x hx
        · rw [List.mem_singleton.mp hx]; decide
    · exact hlab x hx
  have hlne : lab ≠ [] := by
    rw [← hfield]
    cases hq : l.quotedLabel
    · simpa using (hunq hq).1
    · simp
  have htext : l.text = l.pathField ++ ',' :: lab := by
    rw [LabelLine.text, hfield]
  rw [htext, parseLine, getline_append l.pathField lab ',' hp]
  simp only [getline_all lab ',' hlne hl]
  cases hq : l.quotedLabel
  · rw [hq] at hfield
    simp only [Bool.false_eq_true, if_false] at hfield
    subst hfield
    simp only [(hunq hq).2, Bool.false_eq_true, if_false]
    show (stoi l.label >>= fun label => pure (some _)) = _
    rw [hstoi]
    rfl
  · rw [hq] at hfield
    simp only [if_true] at hfield
    subst hfield
    simp only [quoted_wrap, if_true, substr_wrap, hstoi]
    rfl

theorem labelLine_no_newline (l : LabelLine) (h : l.nonNumeric) : ∀ c ∈ l.text, c ≠ '\n' := by
  obtain ⟨-, hpn, -, hln, -, -⟩ := h
  have hp : ∀ y ∈ l.pathField, y ≠ '\n' := fun y hy => by rintro rfl; exact hpn hy
  have hl : ∀ y ∈ l.label, y ≠ '\n' := fun y hy => by rintro rfl; exact hln hy
  intro c hc
  unfold LabelLine.text at hc
  rcases List.mem_append.mp hc with hc | hc
  · exact hp c hc
  · rcases List.mem_cons.mp hc with rfl | hc
    · decide
    · split at hc
      · rcases List.mem_cons.mp hc with rfl | hc
        · decide
        · rcases List.mem_append.mp hc with hc | hc
          · exact hl c hc
          · rw [List.mem_singleton.mp hc]; decide
      · exact hl c hc

theorem readLoop_nonNumeric (b : Int) (fuel : Nat) (l : LabelLine) (after : Option (List Char))
    (i : Int) (d : Nat → Data) (h : l.nonNumeric) (hi : i < b) :
    readLoop b (fuel + 1) (l.text ++ lineEnd after) i d = .error .invalid_argument := by
  have hg : ∃ rest, getline (l.text ++ lineEnd after) '\n' = some (l.text, rest) := by
    cases after with
    | none =>
      refine ⟨[], ?_⟩
      rw [lineEnd, List.append_nil]
      exact getline_all _ _ (by simp [LabelLine.text]) (labelLine_no_newline l h)
    | some r => exact ⟨r, getline_append _ _ _ (labelLine_no_newline l h)⟩
  obtain ⟨rest, hg⟩ := hg
  rw [readLoop, hg]
  simp only [hi, if_true, parseLine_nonNumeric l h]

/-- C14 as stated fails: the label `12abc` is not the text of a decimal
integer, yet `std::stoi` reads its leading digits: `readData` stores the
record with label 12 and returns `true`. -/
theorem readData_numeral_prefix_counterexample :
    (readData (some "header\na.png,12abc\n".toList) (fun _ => ⟨[], 0⟩) 1).map
      (fun r => (r.1, r.2 0)) = .ok (true, ⟨"a.png".toList, 12⟩) := by
  rfl

/-- C14, amended. Non-numeric labels in `readData`: for every data line,
reached while fewer than capacity records are stored, whose label field is
not empty and (after optional quote removal) does not begin, after optional
white space and an optional sign, with a decimal digit, `readData` raises
`invalid_argument` instead of storing a record for that line; the read ends
there, whatever follows the line, after well-formed lines. -/
theorem readData_nonNumeric (header : List Char) (ls : List IndexLine) (bad : LabelLine)
    (after : Option (List Char)) (data : Nat → Data) (capacity : Int)
    (hh : '\n' ∉ header) (hwf : ∀ l ∈ ls, l.wellFormed) (hbad : bad.nonNumeric)
    (hcap : (ls.length : Int) < capacity) :
    readData (some (header ++ '\n' :: (linesText ls ++ (bad.text ++ lineEnd after))))
        data capacity
      = .error .invalid_argument := by
  have hlen := length_le_linesText ls
  rw [readData_header _ _ _ _ hh,
    readLoop_lines_zero capacity ls _ _ data hwf (by omega)
      (by simp only [List.length_append]; omega)]
  obtain ⟨n, hn⟩ : ∃ n,
      (linesText ls ++ (bad.text ++ lineEnd after)).length + 1 - ls.length = n + 1 :=
    ⟨(linesText ls ++ (bad.text ++ lineEnd after)).length - ls.length, by
      simp only [List.length_append]; omega⟩
  rw [hn, readLoop_nonNumeric capacity n bad after _ _ hbad hcap]
  rfl

/-- Witness of C14 (amended): after one well-formed line, a label `abc`. -/
theorem readData_nonNumeric_witness :
    readData (some "header\n\"a.png\",1\nb.png,abc\nc.png,2\n".toList) (fun _ => ⟨[], 0⟩) 3
      = .error .invalid_argument :=
  readData_nonNumeric "header".toList [⟨"a.png".toList, true, false, ['1']⟩]
    ⟨"b.png".toList, "abc".toList, false⟩ (some "c.png,2\n".toList)
    (fun _ => ⟨[], 0⟩) 3 (by decide) (by decide) (by decide) (by decide)


/-! ## Theorems: Normalize over any float arithmetic -/

theorem getElem?_eq_some_getD {F : Type} (buf : List F) (k : Nat) (d : F)
    (h : k < buf.length) : buf[k]? = some (buf.getD k d) := by
  rw [List.getD_eq_getElem?_getD, List.getElem?_eq_getElem h]; rfl

theorem greyPixel_eq {F : Type} (S : SampleOps F) (buf : List F) (n c i : Nat) (hc : 3 ≤ c)
    (hlen : buf.length = n * c) (hi : i < n) :
    greyPixel S buf c i = some (luma S buf c i) := by
  have hb := pixel_index_bound hi hc
  rw [← hlen] at hb
  simp only [greyPixel, getElem?_eq_some_getD buf (i * c) S.zero (by omega),
    getElem?_eq_some_getD buf (i * c + 1) S.zero (by omega),
    getElem?_eq_some_getD buf (i * c + 2) S.zero hb, luma]
  rfl

theorem greyscale_eq {F : Type} (S : SampleOps F) (buf : List F) (w h c : Nat) (hc : 3 ≤ c)
    (hlen : buf.length = w * h * c) :
    greyscale S buf w h c = some ((List.range (w * h)).map (luma S buf c)) :=
  mapM_eq_some_map _ _ _ fun i hi =>
    greyPixel_eq S buf (w * h) c i hc hlen (List.mem_range.mp hi)

theorem resizeRead_index {F : Type} (coord : Coord) (buf : List F) (w h nw nh i j : Nat) :
    resizeRead coord buf w h nw nh i j
      = if readIndex coord w h nw nh i j < 0 then none
        else buf[(readIndex coord w h nw nh i j).toNat]? := rfl

theorem resizeRead_eq {F : Type} (coord : Coord) (buf : List F) (d : F) (w h nw nh i j : Nat)
    (hin : readsInside coord w h nw nh) (hi : i < nh) (hj : j < nw)
    (hlen : w * h ≤ buf.length) :
    resizeRead coord buf w h nw nh i j
      = some (buf.getD (readIndex coord w h nw nh i j).toNat d) := by
  obtain ⟨h0, h1⟩ := hin i hi j hj
  rw [resizeRead_index, if_neg (by omega), getElem?_eq_some_getD buf _ d (by omega)]

theorem resize_eq {F : Type} (coord : Coord) (buf : List F) (d : F) (w h nw nh : Nat)
    (hin : readsInside coord w h nw nh) (hlen : w * h ≤ buf.length) :
    resize coord buf w h nw nh
      = some (((List.range nh).map fun i =>
          (List.range nw).map fun j => buf.getD (readIndex coord w h nw nh i j).toNat d).flatten) := by
  unfold resize
  rw [mapM_eq_some_map (List.range nh) _
    (fun i => (List.range nw).map fun j => buf.getD (readIndex coord w h nw nh i j).toNat d)]
  · rfl
  · intro i hi
    exact mapM_eq_some_map _ _ _ fun j hj =>
      resizeRead_eq coord buf d w h nw nh i j hin (List.mem_range.mp hi) (List.mem_range.mp hj) hlen

theorem length_greyed {F : Type} (S : SampleOps F) (buf : List F) (w h c : Nat) (hc : 1 ≤ c)
    (hlen : buf.length = w * h * c) :
    w * h ≤ (greyed S buf w h c).length
      ∧ (c = 1 ∨ c = 3 ∨ c = 4 → (greyed S buf w h c).length = w * h) := by
  unfold greyed
  split
  · simp
  · rename_i hn
    constructor
    · rw [hlen]; exact Nat.le_mul_of_pos_right _ hc
    · rintro (rfl | rfl | rfl)
      · rw [hlen, Nat.mul_one]
      · exact absurd (Or.inl rfl) hn
      · exact absurd (Or.inr rfl) hn

theorem length_resized {F : Type} (S : SampleOps F) (coord : Coord) (buf : List F)
    (w h nw nh : Nat) (hlen : w ≠ nw ∨ h ≠ nh ∨ buf.length = w * h) :
    (resized S coord buf w h nw nh).length = nw * nh := by
  unfold resized
  split
  · rw [length_rows, Nat.mul_comm]
  · rename_i hn
    have h1 : w = nw := by_contra fun hne => hn (Or.inl hne)
    have h2 : h = nh := by_contra fun hne => hn (Or.inr hne)
    rcases hlen with hl | hl | hl
    · exact absurd h1 hl
    · exact absurd h2 hl
    · rw [hl, h1, h2]

theorem le_length_resized_greyed {F : Type} (S : SampleOps F) (coord : Coord) (buf : List F)
    (w h nw nh c : Nat) (hc : 1 ≤ c) (hlen : buf.length = w * h * c) :
    nw * nh ≤ (resized S coord (greyed S buf w h c) w h nw nh).length
      ∧ (c = 1 ∨ c = 3 ∨ c = 4 ∨ w ≠ nw ∨ h ≠ nh →
          (resized S coord (greyed S buf w h c) w h nw nh).length = nw * nh) := by
  by_cases hne : w ≠ nw ∨ h ≠ nh
  · have hor : w ≠ nw ∨ h ≠ nh ∨ (greyed S buf w h c).length = w * h := by
      rcases hne with h1 | h1
      · exact Or.inl h1
      · exact Or.inr (Or.inl h1)
    rw [length_resized _ _ _ _ _ _ _ hor]
    exact ⟨Nat.le_refl _, fun _ => rfl⟩
  · have h1 : w = nw := by_contra fun hx => hne (Or.inl hx)
    have h2 : h = nh := by_contra fun hx => hne (Or.inr hx)
    rw [resized, if_neg hne, ← h1, ← h2]
    refine ⟨(length_greyed S buf w h c hc hlen).1, fun hs => ?_⟩
    apply (length_greyed S buf w h c hc hlen).2
    rcases hs with hs | hs | hs | hs | hs
    · exact Or.inl hs
    · exact Or.inr (Or.inl hs)
    · exact Or.inr (Or.inr hs)
    · exact absurd rfl hs
    · exact absurd rfl hs

theorem normalizeScaled_eq {F : Type} (S : SampleOps F) (coord : Coord) (buf : List F)
    (w h nw nh c : Nat) (hc : 1 ≤ c) (hlen : buf.length = w * h * c)
    (hin : w ≠ nw ∨ h ≠ nh → readsInside coord w h nw nh) :
    normalizeScaled S coord buf w h nw nh c
      = scale S (resized S coord (greyed S buf w h c) w h nw nh) (nw * nh) := by
  have hg : (if c = 3 ∨ c = 4 then greyscale S buf w h c else pure buf)
      = some (greyed S buf w h c) := by
    unfold greyed
    split
    · exact greyscale_eq S buf w h c (by omega) hlen
    · rfl
  have hr : (if w ≠ nw ∨ h ≠ nh then resize coord (greyed S buf w h c) w h nw nh
      else pure (greyed S buf w h c)) = some (resized S coord (greyed S buf w h c) w h nw nh) := by
    unfold resized
    split
    · rename_i hne
      exact resize_eq coord _ S.zero w h nw nh (hin hne) (length_greyed S buf w h c hc hlen).1
    · rfl
  unfold normalizeScaled
  rw [hg]
  show (do
    let pixArr ← (if w ≠ nw ∨ h ≠ nh then resize coord (greyed S buf w h c) w h nw nh
      else pure (greyed S buf w h c))
    scale S pixArr (nw * nh)) = _
  rw [hr]
  rfl

/-- What `Normalize` returns, for every float arithmetic: with `scaled` the
first `newWidth * newHeight` samples after the divide-by-255 loop and `rest`
the samples behind them, the buffer is `scaled ++ rest`, inverted on `scaled`
when the computed `mean_intensity` exceeds `0.5f`. -/
theorem Normalize_general {F : Type} (S : SampleOps F) (coord : Coord) (buf : List F)
    (w h nw nh c : Nat) (hc : 1 ≤ c) (hlen : buf.length = w * h * c)
    (hin : w ≠ nw ∨ h ≠ nh → readsInside coord w h nw nh) :
    ∃ scaled rest : List F,
      scaled = ((resized S coord (greyed S buf w h c) w h nw nh).take (nw * nh)).map
          (fun x => S.div x S.c255)
      ∧ rest = (resized S coord (greyed S buf w h c) w h nw nh).drop (nw * nh)
      ∧ scaled.length = nw * nh
      ∧ normalizeScaled S coord buf w h nw nh c
          = some (scaled ++ rest, scaled.foldl S.add S.zero)
      ∧ Normalize S coord buf w h nw nh c
        = some ((if S.gt (S.div (scaled.foldl S.add S.zero) (S.ofInt ((nw * nh : Nat) : Int)))
              S.half = true then scaled.map (fun x => S.sub S.one x) else scaled) ++ rest) := by
  have hle := (le_length_resized_greyed S coord buf w h nw nh c hc hlen).1
  have hs := normalizeScaled_eq S coord buf w h nw nh c hc hlen hin
  generalize resized S coord (greyed S buf w h c) w h nw nh = B at hle hs ⊢
  have hl : ((B.take (nw * nh)).map fun x => S.div x S.c255).length = nw * nh := by
    rw [List.length_map, List.length_take]; omega
  rw [scale, if_pos hle] at hs
  refine ⟨_, _, rfl, rfl, hl, hs, ?_⟩
  unfold Normalize
  rw [hs]
  show (if _ then invertSamples _ _ _ else pure _) = _
  split
  · rw [invertSamples, if_pos (by rw [List.length_append, hl]; omega), List.take_left' hl,
      List.drop_left' hl]
  · rfl

theorem Normalize_some_length {F : Type} (S : SampleOps F) (coord : Coord) (buf : List F)
    (w h nw nh c : Nat) (hc : 1 ≤ c) (hlen : buf.length = w * h * c)
    (hshape : c = 1 ∨ c = 3 ∨ c = 4 ∨ w ≠ nw ∨ h ≠ nh)
    (hin : w ≠ nw ∨ h ≠ nh → readsInside coord w h nw nh) :
    ∃ out, Normalize S coord buf w h nw nh c = some out ∧ out.length = nw * nh := by
  obtain ⟨scaled, rest, -, hrest, hl, -, hN⟩ :=
    Normalize_general S coord buf w h nw nh c hc hlen hin
  have hB := (le_length_resized_greyed S coord buf w h nw nh c hc hlen).2 hshape
  have hr : rest.length = 0 := by rw [hrest, List.length_drop, hB]; omega
  refine ⟨_, hN, ?_⟩
  split <;> simp [hl, hr]

/-- C7 as stated fails: a two-channel 1×1 image normalized to 1×1 is neither
converted to grayscale nor resized, so the buffer keeps its two samples. -/
theorem Normalize_two_channels_counterexample :
    Normalize binary32 binary32Coord [B32.ofInt 10, B32.ofInt 20] 1 1 1 1 2
        = some [B32.div (B32.ofInt 10) (B32.ofInt 255), B32.ofInt 20]
      ∧ [B32.div (B32.ofInt 10) (B32.ofInt 255), B32.ofInt 20].length ≠ 1 * 1 := by
  decide

/-- C7, amended. Output shape of `Normalize`, for every float arithmetic: for
every width, height, targetWidth and targetHeight whose products are values of
an `int`, every channel count that is 1, 3 or 4 (or any channel count `≥ 1`
when the target size differs from the source size) and every input buffer of
width × height × channels samples, provided the resize step, when it runs,
reads inside the source image, `Normalize` returns and the buffer it leaves
holds exactly targetWidth × targetHeight samples. -/
theorem Normalize_length {F : Type} (S : SampleOps F) (coord : Coord) (pixArr : List F)
    (width height newWidth newHeight nb_channels : Nat) (hc : 1 ≤ nb_channels)
    (hlen : pixArr.length = width * height * nb_channels)
    (_hfit : sizesFit width height newWidth newHeight nb_channels)
    (hshape : nb_channels = 1 ∨ nb_channels = 3 ∨ nb_channels = 4
      ∨ width ≠ newWidth ∨ height ≠ newHeight)
    (hin : width ≠ newWidth ∨ height ≠ newHeight →
      readsInside coord width height newWidth newHeight) :
    ∃ out, Normalize S coord pixArr width height newWidth newHeight nb_channels = some out
      ∧ out.length = newWidth * newHeight :=
  Normalize_some_length S coord pixArr width height newWidth newHeight nb_channels hc hlen
    hshape hin

/-- Witness of C7 (amended): a 1×2 RGB image normalized to 2×1 in binary32. -/
theorem Normalize_length_witness :
    ∃ out, Normalize binary32 binary32Coord
          [B32.ofInt 255, B32.ofInt 0, B32.ofInt 0, B32.ofInt 0, B32.ofInt 255, B32.ofInt 0]
          1 2 2 1 3 = some out
      ∧ out.length = 2 * 1 :=
  Normalize_length binary32 binary32Coord
    [B32.ofInt 255, B32.ofInt 0, B32.ofInt 0, B32.ofInt 0, B32.ofInt 255, B32.ofInt 0]
    1 2 2 1 3 (by decide) (by decide) (by decide) (by decide) (fun _ => by decide)

theorem exactCoord_eq (size newSize k : Nat) :
    exactCoord size newSize k = ((k * size / newSize : Nat) : Int) :=
  floor_ratio k size newSize

/-- C8 as stated fails: resizing 26 columns to 22, the float ratio 26/22 is
rounded down, 11 times the ratio stays below 13, and destination column 11
takes source column 12, whereas `floor(11*26/22) = 13`. -/
theorem resize_float_ratio_counterexample :
    11 * 26 / 22 = 13 ∧ binary32Coord 26 22 11 = 12
      ∧ (resize binary32Coord (List.range 26) 26 1 22 1).map (fun out => out[0 * 22 + 11]?)
          = some (some 12) := by
  decide

/-- C8, amended. The resize step of `Normalize` samples without
interpolation, for every float arithmetic: for a single-channel
width × height image and a different target size (products values of an
`int`), provided the step reads inside the source image, the resized buffer
holds targetWidth × targetHeight samples, is the buffer `Normalize` goes on to
scale, and has at position `i*targetWidth + j` the source sample of row
`static_cast<int>(floor(i*y_ratio))` and column
`static_cast<int>(floor(j*x_ratio))` as the source computes them; these are
`floor(i*height/targetHeight)` and `floor(j*width/targetWidth)` when the ratios
and products are exact. -/
theorem resize_nearest {F : Type} (S : SampleOps F) (coord : Coord) (pixArr : List F)
    (width height newWidth newHeight : Nat) (hlen : pixArr.length = width * height)
    (_hfit : sizesFit width height newWidth newHeight 1)
    (hne : width ≠ newWidth ∨ height ≠ newHeight)
    (hin : readsInside coord width height newWidth newHeight) :
    (∃ out, resize coord pixArr width height newWidth newHeight = some out
      ∧ out.length = newWidth * newHeight
      ∧ normalizeScaled S coord pixArr width height newWidth newHeight 1
          = scale S out (newWidth * newHeight)
      ∧ ∀ i j, i < newHeight → j < newWidth →
          out[i * newWidth + j]?
            = pixArr[(coord height newHeight i * width + coord width newWidth j).toNat]?)
    ∧ ∀ i j, exactCoord height newHeight i = ((i * height / newHeight : Nat) : Int)
        ∧ exactCoord width newWidth j = ((j * width / newWidth : Nat) : Int) := by
  refine ⟨⟨_, resize_eq coord pixArr S.zero width height newWidth newHeight hin (by omega),
    ?_, ?_, ?_⟩, fun i j => ⟨exactCoord_eq _ _ _, exactCoord_eq _ _ _⟩⟩
  · rw [length_rows, Nat.mul_comm]
  · rw [normalizeScaled_eq S coord pixArr width height newWidth newHeight 1 (Nat.le_refl 1)
      (by rw [hlen, Nat.mul_one]) (fun _ => hin)]
    have hg : greyed S pixArr width height 1 = pixArr := by simp [greyed]
    rw [hg, resized, if_pos hne]
  · intro i j hi hj
    obtain ⟨h0, h1⟩ := hin i hi j hj
    rw [getElem?_rows (fun i j => pixArr.getD (readIndex coord width height newWidth newHeight i j).toNat
      S.zero) newWidth newHeight i j hi hj]
    exact (getElem?_eq_some_getD pixArr _ S.zero (by rw [hlen]; omega)).symm

/-- Witness of C8 (amended): in binary32 a 4×4 image resized to 2×2 has at
`(j,i)` the source pixel of column `2j` and row `2i`. -/
theorem resize_nearest_witness :
    ∃ out, resize binary32Coord ((List.range 16).map fun k => B32.ofInt k) 4 4 2 2 = some out
      ∧ out.length = 2 * 2
      ∧ out[0]? = some (B32.ofInt 0) ∧ out[1]? = some (B32.ofInt 2)
      ∧ out[2]? = some (B32.ofInt 8) ∧ out[3]? = some (B32.ofInt 10) := by
  obtain ⟨⟨out, h1, h2, -, h4⟩, -⟩ :=
    resize_nearest binary32 binary32Coord ((List.range 16).map fun k => B32.ofInt k) 4 4 2 2
      (by decide) (by decide) (by decide) (by decide)
  exact ⟨out, h1, h2, (h4 0 0 (by decide) (by decide)).trans (by decide),
    (h4 0 1 (by decide) (by decide)).trans (by decide),
    (h4 1 0 (by decide) (by decide)).trans (by decide),
    (h4 1 1 (by decide) (by decide)).trans (by decide)⟩

theorem mapM_eq_none {α β : Type} (l : List α) (f : α → Option β) (x : α) (hx : x ∈ l)
    (h : f x = none) : l.mapM f = none := by
  induction l with
  | nil => simp at hx
  | cons a l ih =>
    rw [List.mapM_cons]
    rcases List.mem_cons.mp hx with rfl | hx
    · rw [h]; rfl
    · rw [ih hx]
      cases f a <;> rfl

theorem resize_none {F : Type} (coord : Coord) (buf : List F) (w h nw nh i j : Nat)
    (hi : i < nh) (hj : j < nw) (hr : resizeRead coord buf w h nw nh i j = none) :
    resize coord buf w h nw nh = none := by
  unfold resize
  rw [mapM_eq_none (List.range nh) _ i (List.mem_range.mpr hi)
    (mapM_eq_none (List.range nw) _ j (List.mem_range.mpr hj) hr)]
  rfl

theorem Normalize_none {F : Type} (S : SampleOps F) (coord : Coord) (buf : List F)
    (w h nw nh i j : Nat) (hne : w ≠ nw ∨ h ≠ nh) (hi : i < nh) (hj : j < nw)
    (hr : resizeRead coord buf w h nw nh i j = none) :
    Normalize S coord buf w h nw nh 1 = none := by
  have hs : normalizeScaled S coord buf w h nw nh 1 = none := by
    unfold normalizeScaled
    simp only [OfNat.one_ne_ofNat, or_self, if_false, hne, if_true]
    show (resize coord buf w h nw nh >>= fun pixArr => scale S pixArr (nw * nh)) = none
    rw [resize_none coord buf w h nw nh i j hi hj hr]
    rfl
  unfold Normalize
  rw [hs]
  rfl

/-- C9 as stated fails: resizing a 1×1 image to 16777215×1, the float product
of column 16777214 and the ratio rounds up to 1.0, and the resize step reads
`pixArr[1]` of a one-sample buffer: no sample is defined, whether the sample
arithmetic is binary32 or exact. -/
theorem Normalize_read_outside_counterexample :
    binary32Coord 1 16777215 16777214 = 1
      ∧ Normalize binary32 binary32Coord [B32.ofInt 0] 1 1 16777215 1 1 = none
      ∧ Normalize exact binary32Coord [0] 1 1 16777215 1 1 = none := by
  have h0 : binary32Coord 1 1 0 = 0 := by decide
  have h1 : binary32Coord 1 16777215 16777214 = 1 := by decide
  refine ⟨h1, ?_, ?_⟩
  · exact Normalize_none binary32 binary32Coord [B32.ofInt 0] 1 1 16777215 1 0 16777214
      (by decide) (by decide) (by decide) (by decide)
  · refine Normalize_none exact binary32Coord [0] 1 1 16777215 1 0 16777214
      (by decide) (by decide) (by decide) ?_
    simp [resizeRead, h0, h1]

theorem getD_bounds (buf : List ℚ) (k : Nat) (hb : ∀ x ∈ buf, 0 ≤ x ∧ x ≤ 255) :
    0 ≤ buf.getD k 0 ∧ buf.getD k 0 ≤ 255 := by
  by_cases hk : k < buf.length
  · have hm : buf.getD k 0 ∈ buf := by
      rw [List.getD_eq_getElem _ _ hk]; exact List.getElem_mem hk
    exact hb _ hm
  · rw [List.getD_eq_default _ _ (by omega)]
    norm_num

theorem luma_bounds (buf : List ℚ) (c i : Nat) (hb : ∀ x ∈ buf, 0 ≤ x ∧ x ≤ 255) :
    0 ≤ luma exact buf c i ∧ luma exact buf c i ≤ 255 := by
  have h0 := getD_bounds buf (i * c) hb
  have h1 := getD_bounds buf (i * c + 1) hb
  have h2 := getD_bounds buf (i * c + 2) hb
  show 0 ≤ (0.299 : ℚ) * buf.getD (i * c) 0 + 0.587 * buf.getD (i * c + 1) 0
      + 0.114 * buf.getD (i * c + 2) 0
    ∧ (0.299 : ℚ) * buf.getD (i * c) 0 + 0.587 * buf.getD (i * c + 1) 0
      + 0.114 * buf.getD (i * c + 2) 0 ≤ 255
  generalize buf.getD (i * c) 0 = r at h0 ⊢
  generalize buf.getD (i * c + 1) 0 = g at h1 ⊢
  generalize buf.getD (i * c + 2) 0 = b at h2 ⊢
  constructor
  · norm_num; linarith [h0.1, h1.1, h2.1]
  · norm_num; linarith [h0.2, h1.2, h2.2]

theorem greyed_bounds (buf : List ℚ) (w h c : Nat) (hb : ∀ x ∈ buf, 0 ≤ x ∧ x ≤ 255) :
    ∀ x ∈ greyed exact buf w h c, 0 ≤ x ∧ x ≤ 255 := by
  unfold greyed
  split
  · intro x hx
    obtain ⟨i, -, rfl⟩ := List.mem_map.mp hx
    exact luma_bounds buf c i hb
  · exact hb

theorem resized_bounds (coord : Coord) (buf : List ℚ) (w h nw nh : Nat)
    (hb : ∀ x ∈ buf, 0 ≤ x ∧ x ≤ 255) :
    ∀ x ∈ resized exact coord buf w h nw nh, 0 ≤ x ∧ x ≤ 255 := by
  unfold resized
  split
  · intro x hx
    obtain ⟨i, j, -, -, rfl⟩ := mem_rows _ _ _ _ hx
    exact getD_bounds buf _ hb
  · exact hb

/-- C9, amended. Normalization bounds, with the sample arithmetic taken as
exact and the resize coordinates as any float arithmetic computes them: for
every image with 1, 3 or 4 channels holding width × height × channels samples
(products values of an `int`) that all lie in [0,255], and every target size
for which the resize step, when it runs, reads inside the source image,
`Normalize` returns, every sample of the buffer lies in [0,1] after the
divide-by-255 step, and every sample of the buffer returned lies in [0,1],
whether or not the polarity inversion was applied. -/
theorem Normalize_bounds (coord : Coord) (pixArr : List ℚ)
    (width height newWidth newHeight nb_channels : Nat)
    (hc : nb_channels = 1 ∨ nb_channels = 3 ∨ nb_channels = 4)
    (hlen : pixArr.length = width * height * nb_channels)
    (_hfit : sizesFit width height newWidth newHeight nb_channels)
    (hin : width ≠ newWidth ∨ height ≠ newHeight →
      readsInside coord width height newWidth newHeight)
    (hb : ∀ x ∈ pixArr, 0 ≤ x ∧ x ≤ 255) :
    ∃ scaled total_intensity out,
      normalizeScaled exact coord pixArr width height newWidth newHeight nb_channels
        = some (scaled, total_intensity)
      ∧ (∀ x ∈ scaled, 0 ≤ x ∧ x ≤ 1)
      ∧ Normalize exact coord pixArr width height newWidth newHeight nb_channels = some out
      ∧ ∀ x ∈ out, 0 ≤ x ∧ x ≤ 1 := by
  have hc1 : 1 ≤ nb_channels := by omega
  obtain ⟨scaled, rest, hsc, hrest, hl, hns, hN⟩ :=
    Normalize_general exact coord pixArr width height newWidth newHeight nb_channels hc1 hlen hin
  have hB := (le_length_resized_greyed exact coord pixArr width height newWidth newHeight
    nb_channels hc1 hlen).2 (by rcases hc with h | h | h <;> simp [h])
  have hr : rest = [] := by
    apply List.eq_nil_of_length_eq_zero
    rw [hrest, List.length_drop, hB]; omega
  subst hr
  rw [List.append_nil] at hns hN
  have hsb : ∀ x ∈ scaled, 0 ≤ x ∧ x ≤ 1 := by
    intro x hx
    rw [hsc] at hx
    obtain ⟨y, hy, rfl⟩ := List.mem_map.mp hx
    have := resized_bounds coord _ width height newWidth newHeight
      (greyed_bounds pixArr width height nb_channels hb) y (List.mem_of_mem_take hy)
    show 0 ≤ y / 255 ∧ y / 255 ≤ 1
    constructor
    · exact div_nonneg this.1 (by norm_num)
    · rw [div_le_one (by norm_num)]; exact this.2
  refine ⟨scaled, _, _, hns, hsb, hN, ?_⟩
  intro x hx
  split at hx
  · obtain ⟨y, hy, rfl⟩ := List.mem_map.mp hx
    have := hsb y hy
    show 0 ≤ 1 - y ∧ 1 - y ≤ 1
    constructor <;> linarith [this.1, this.2]
  · exact hsb x hx

/-- Witness of C9 (amended): a 1×2 RGB image normalized to 2×1, with the
resize coordinates of binary32. -/
theorem Normalize_bounds_witness :
    ∃ scaled total_intensity out,
      normalizeScaled exact binary32Coord [255, 0, 0, 0, 255, 0] 1 2 2 1 3
        = some (scaled, total_intensity)
      ∧ (∀ x ∈ scaled, 0 ≤ x ∧ x ≤ 1)
      ∧ Normalize exact binary32Coord [255, 0, 0, 0, 255, 0] 1 2 2 1 3 = some out
      ∧ ∀ x ∈ out, 0 ≤ x ∧ x ≤ 1 :=
  Normalize_bounds binary32Coord [255, 0, 0, 0, 255, 0] 1 2 2 1 3 (by decide) (by decide)
    (by decide) (fun _ => by decide) (by norm_num)

theorem scale_all {F : Type} (S : SampleOps F) (buf : List F) (n : Nat) (h : buf.length = n) :
    scale S buf n
      = some (buf.map (fun x => S.div x S.c255),
          (buf.map fun x => S.div x S.c255).foldl S.add S.zero) := by
  subst h
  simp [scale]

theorem invertSamples_all {F : Type} (S : SampleOps F) (buf : List F) (n : Nat)
    (h : buf.length = n) :
    invertSamples S buf n = some (buf.map fun x => S.sub S.one x) := by
  subst h
  simp [invertSamples]

set_option maxRecDepth 100000 in
/-- C11 as stated fails: for the 2×2 image 64, 128, 128, 190 the mean of
`s[k]/255` is exactly 0.5, but the float sum of the four quotients is rounded
up to `2 + 2^-22`, the computed mean exceeds `0.5f`, and `Normalize` inverts
every sample. -/
theorem Normalize_float_mean_counterexample :
    mean (([64, 128, 128, 190] : List ℚ).map fun x => x / 255) ≤ 0.5
      ∧ Normalize binary32 binary32Coord
          [B32.ofInt 64, B32.ofInt 128, B32.ofInt 128, B32.ofInt 190] 2 2 2 2 1
        = some ([B32.ofInt 64, B32.ofInt 128, B32.ofInt 128, B32.ofInt 190].map
            fun x => B32.sub (B32.ofInt 1) (B32.div x (B32.ofInt 255)))
      ∧ Normalize binary32 binary32Coord
          [B32.ofInt 64, B32.ofInt 128, B32.ofInt 128, B32.ofInt 190] 2 2 2 2 1
        ≠ some ([B32.ofInt 64, B32.ofInt 128, B32.ofInt 128, B32.ofInt 190].map
            fun x => B32.div x (B32.ofInt 255)) := by
  refine ⟨by norm_num [mean], by decide, by decide⟩

/-- C11, amended. Single-channel image of the target size, for every float
arithmetic: when channels is 1 and (width,height) =
(targetWidth,targetHeight), `Normalize` applies neither the grayscale nor the
resize step (the input buffer itself is scaled); with `s` the input buffer of
width × height samples and `m` the mean the source computes (the quotients
`s[k]/255.0f` added up in index order from `0.0f`, the sum divided by the
converted count, every operation rounded), the output sample `k` is
`s[k]/255.0f` when `m > 0.5f` is false and `1.0f − s[k]/255.0f` when it is
true. -/
theorem Normalize_same_size {F : Type} (S : SampleOps F) (coord : Coord) (s : List F)
    (width height : Nat) (hlen : s.length = width * height)
    (_hfit : sizesFit width height width height 1) :
    normalizeScaled S coord s width height width height 1 = scale S s (width * height)
      ∧ Normalize S coord s width height width height 1
        = some (if S.gt (S.div ((s.map fun x => S.div x S.c255).foldl S.add S.zero)
              (S.ofInt ((width * height : Nat) : Int))) S.half = true
            then s.map fun x => S.sub S.one (S.div x S.c255)
            else s.map fun x => S.div x S.c255) := by
  have hs : normalizeScaled S coord s width height width height 1
      = scale S s (width * height) := by
    simp [normalizeScaled]
  refine ⟨hs, ?_⟩
  unfold Normalize
  rw [hs, scale_all S s _ hlen]
  show (if _ then invertSamples _ _ _ else pure _) = _
  split
  · rw [invertSamples_all S _ _ (by rw [List.length_map]; exact hlen), List.map_map]
    rfl
  · rfl

/-- Witness of C11 (amended): a 2×2 image that is mostly white, in binary32. -/
theorem Normalize_same_size_witness :
    normalizeScaled binary32 binary32Coord
          [B32.ofInt 255, B32.ofInt 255, B32.ofInt 0, B32.ofInt 255] 2 2 2 2 1
        = scale binary32 [B32.ofInt 255, B32.ofInt 255, B32.ofInt 0, B32.ofInt 255] (2 * 2)
      ∧ Normalize binary32 binary32Coord
          [B32.ofInt 255, B32.ofInt 255, B32.ofInt 0, B32.ofInt 255] 2 2 2 2 1
        = some (if binary32.gt (binary32.div
              (([B32.ofInt 255, B32.ofInt 255, B32.ofInt 0, B32.ofInt 255].map
                fun x => binary32.div x binary32.c255).foldl binary32.add binary32.zero)
              (binary32.ofInt ((2 * 2 : Nat) : Int))) binary32.half = true
            then [B32.ofInt 255, B32.ofInt 255, B32.ofInt 0, B32.ofInt 255].map
              fun x => binary32.sub binary32.one (binary32.div x binary32.c255)
            else [B32.ofInt 255, B32.ofInt 255, B32.ofInt 0, B32.ofInt 255].map
              fun x => binary32.div x binary32.c255) :=
  Normalize_same_size binary32 binary32Coord
    [B32.ofInt 255, B32.ofInt 255, B32.ofInt 0, B32.ofInt 255] 2 2 (by decide) (by decide)

theorem mean_take_append (x rest : List ℚ) (n : Nat) (hx : x.length = n) :
    mean ((x ++ rest).take n) = x.sum / (n : ℚ) := by
  rw [List.take_left' hx, mean, hx]

theorem foldl_add_exact (l : List ℚ) (a : ℚ) : l.foldl exact.add a = a + l.sum := by
  induction l generalizing a with
  | nil => simp
  | cons x l ih =>
    rw [List.foldl_cons, ih, List.sum_cons]
    show a + x + l.sum = a + (x + l.sum)
    ring

set_option maxRecDepth 100000 in
/-- C19 as stated fails: a two-channel 1×1 image (a black pixel with an opaque
alpha sample) normalized to 1×1 keeps its second sample untouched, and the
mean of the samples of the buffer returned, 127.5, exceeds 0.5.  With one
channel the bound fails as well in binary32: for the 2×2 image of samples 0,
255, 127.5 and 127.50001525878906 the sum of the scaled samples rounds to 2.0,
the mean computed is 0.5, nothing is inverted, and the exact mean of the
buffer returned (0, 1, 0.5 and 0.5 + 2⁻²⁴) exceeds 0.5. -/
theorem Normalize_mean_counterexample :
    (Normalize binary32 binary32Coord [B32.ofInt 0, B32.ofInt 255] 1 1 1 1 2
        = some [⟨0, 0⟩, ⟨16711680, -16⟩]
      ∧ mean (([⟨0, 0⟩, ⟨16711680, -16⟩] : List B32).map B32.toRat) > 0.5)
    ∧ Normalize binary32 binary32Coord
          [B32.ofInt 0, B32.ofInt 255, B32.round 255 2, B32.round 8355841 65536] 2 2 2 2 1
        = some [⟨0, 0⟩, ⟨8388608, -23⟩, ⟨8388608, -24⟩, ⟨8388609, -24⟩]
    ∧ mean (([⟨0, 0⟩, ⟨8388608, -23⟩, ⟨8388608, -24⟩, ⟨8388609, -24⟩] : List B32).map
          B32.toRat) > 0.5 := by
  have h1 : (-16 : Int).toNat = 0 := by decide
  have h2 : (-(-16 : Int)).toNat = 16 := by decide
  have h3 : (0 : Int).toNat = 0 := by decide
  have h4 : (-(0 : Int)).toNat = 0 := by decide
  have h5 : (-23 : Int).toNat = 0 := by decide
  have h6 : (-(-23 : Int)).toNat = 23 := by decide
  have h7 : (-24 : Int).toNat = 0 := by decide
  have h8 : (-(-24 : Int)).toNat = 24 := by decide
  refine ⟨⟨by decide, ?_⟩, by decide, ?_⟩
  · simp only [mean, B32.toRat, B32.num, B32.den, List.map_cons, List.map_nil, h1, h2, h3, h4]
    norm_num
  · simp only [mean, B32.toRat, B32.num, B32.den, List.map_cons, List.map_nil, h3, h4, h5, h6,
      h7, h8]
    norm_num

/-- C19, amended. Polarity postcondition of `Normalize`: for every image
holding width × height × channels samples (channels ≥ 1, products values of an
`int`) and every target size with targetWidth × targetHeight > 0 for which the
resize step, when it runs, reads inside the source image, in every float
arithmetic `Normalize` returns the first targetWidth × targetHeight scaled
samples, each replaced by `1.0f − sample` exactly when the `mean_intensity` the
source computed exceeds `0.5f`, followed by the samples behind them untouched;
when the sample arithmetic is exact, the mean of these first samples of the
buffer returned is at most 0.5, and they are all the samples of the buffer
when channels is 1, 3 or 4 or the target size differs from the source size. -/
theorem Normalize_mean {F : Type} (S : SampleOps F) (coord : Coord) (pixArr : List F)
    (samples : List ℚ) (width height newWidth newHeight nb_channels : Nat)
    (hc : 1 ≤ nb_channels)
    (hlen : pixArr.length = width * height * nb_channels)
    (hlenE : samples.length = width * height * nb_channels)
    (_hfit : sizesFit width height newWidth newHeight nb_channels)
    (hin : width ≠ newWidth ∨ height ≠ newHeight →
      readsInside coord width height newWidth newHeight)
    (hn : 0 < newWidth * newHeight) :
    (∃ scaled rest total_intensity,
      normalizeScaled S coord pixArr width height newWidth newHeight nb_channels
        = some (scaled ++ rest, total_intensity)
      ∧ scaled.length = newWidth * newHeight
      ∧ Normalize S coord pixArr width height newWidth newHeight nb_channels
        = some ((if S.gt (S.div total_intensity (S.ofInt ((newWidth * newHeight : Nat) : Int)))
              S.half = true then scaled.map (fun x => S.sub S.one x) else scaled) ++ rest))
    ∧ ∃ out, Normalize exact coord samples width height newWidth newHeight nb_channels
          = some out
        ∧ newWidth * newHeight ≤ out.length
        ∧ mean (out.take (newWidth * newHeight)) ≤ 0.5
        ∧ (nb_channels = 1 ∨ nb_channels = 3 ∨ nb_channels = 4
            ∨ width ≠ newWidth ∨ height ≠ newHeight →
          out.take (newWidth * newHeight) = out) := by
  constructor
  · obtain ⟨scaled, rest, -, -, hl, hns, hN⟩ :=
      Normalize_general S coord pixArr width height newWidth newHeight nb_channels hc hlen hin
    exact ⟨scaled, rest, _, hns, hl, hN⟩
  · obtain ⟨scaled, rest, -, -, hl, -, hN⟩ :=
      Normalize_general exact coord samples width height newWidth newHeight nb_channels hc
        hlenE hin
    have hpos : (0 : ℚ) < ((newWidth * newHeight : Nat) : ℚ) := by exact_mod_cast hn
    have htot : scaled.foldl exact.add exact.zero = scaled.sum := by
      rw [foldl_add_exact]
      show (0 : ℚ) + scaled.sum = scaled.sum
      ring
    rw [htot] at hN
    refine ⟨_, hN, ?_, ?_, ?_⟩
    · split <;> simp [hl]
    · split
      · rename_i hgt
        have hgt2 : (0.5 : ℚ) < scaled.sum / ((newWidth * newHeight : Nat) : ℚ) := by
          have : decide ((0.5 : ℚ) < scaled.sum / (((newWidth * newHeight : Nat) : Int) : ℚ))
              = true := hgt
          simpa using this
        rw [mean_take_append _ _ _ (by rw [List.length_map]; exact hl)]
        show ((scaled.map fun x => 1 - x).sum) / _ ≤ _
        rw [sum_map_one_sub, hl, sub_div, div_self (ne_of_gt hpos)]
        norm_num at hgt2 ⊢
        linarith
      · rename_i hle
        have hle2 : ¬ (0.5 : ℚ) < scaled.sum / ((newWidth * newHeight : Nat) : ℚ) := by
          intro hlt
          apply hle
          show decide ((0.5 : ℚ) < scaled.sum / (((newWidth * newHeight : Nat) : Int) : ℚ))
              = true
          simpa using hlt
        rw [mean_take_append _ _ _ hl]
        exact not_lt.mp hle2
    · intro hshape
      obtain ⟨out2, h2, hlen2⟩ := Normalize_some_length exact coord samples width height
        newWidth newHeight nb_channels hc hlenE hshape hin
      rw [hN] at h2
      injection h2 with h2
      rw [h2, List.take_of_length_le (by omega)]

/-- Witness of C19 (amended): a white 1×2 RGB image normalized to 2×1, in
binary32 and with exact samples. -/
theorem Normalize_mean_witness :
    (∃ scaled rest total_intensity,
      normalizeScaled binary32 binary32Coord
          [B32.ofInt 255, B32.ofInt 255, B32.ofInt 255,
            B32.ofInt 255, B32.ofInt 255, B32.ofInt 255] 1 2 2 1 3
        = some (scaled ++ rest, total_intensity)
      ∧ scaled.length = 2 * 1
      ∧ Normalize binary32 binary32Coord
          [B32.ofInt 255, B32.ofInt 255, B32.ofInt 255,
            B32.ofInt 255, B32.ofInt 255, B32.ofInt 255] 1 2 2 1 3
        = some ((if binary32.gt (binary32.div total_intensity
                (binary32.ofInt ((2 * 1 : Nat) : Int))) binary32.half = true
              then scaled.map (fun x => binary32.sub binary32.one x) else scaled) ++ rest))
    ∧ ∃ out, Normalize exact binary32Coord [255, 255, 255, 255, 255, 255] 1 2 2 1 3 = some out
        ∧ 2 * 1 ≤ out.length
        ∧ mean (out.take (2 * 1)) ≤ 0.5
        ∧ ((3 : Nat) = 1 ∨ (3 : Nat) = 3 ∨ (3 : Nat) = 4 ∨ (1 : Nat) ≠ 2 ∨ (2 : Nat) ≠ 1 →
          out.take (2 * 1) = out) :=
  Normalize_mean binary32 binary32Coord
    [B32.ofInt 255, B32.ofInt 255, B32.ofInt 255, B32.ofInt 255, B32.ofInt 255, B32.ofInt 255]
    [255, 255, 255, 255, 255, 255] 1 2 2 1 3 (by decide) (by decide) (by decide) (by decide)
    (fun _ => by decide) (by decide)

end ReadFile
